import Mathlib

/-!
Verification of the product-matching engine (`match.py`, class `PerfectMatcher`).

The engine is shallowly embedded: Python strings become `List Char` / `String`,
pandas rows become records, Python `dict` configuration tables become
association lists, float scores become exact rationals (`ℚ`), and the two
external library functions the engine calls — `unicodedata.normalize("NFKC", ·)`
and `rapidfuzz.fuzz.partial_ratio` — are abstract function parameters carried
in the configuration record.  Python `set` values are modelled as lists in
first-insertion order (CPython leaves set iteration order unspecified; the
embedding fixes one order and counterexamples below are chosen so that they
hold for the fixed order).
-/

namespace ProductMatching

/-- Python `\s` / `str.strip()` whitespace class, restricted to the ASCII
whitespace characters (the engine's normalized strings only ever contain
`' '`). -/
def pyIsSpace (c : Char) : Bool :=
  -- code points of ' ', '\t', '\n', '\r', '\x0b', '\x0c'
  c.toNat = 32 || c.toNat = 9 || c.toNat = 10 || c.toNat = 13 ||
  c.toNat = 11 || c.toNat = 12

/-- Hangul syllable block U+AC00 – U+D7A3, the `가-힣` range of the regexes in
`normalize_text_ultra` and `extract_size_parts_ultra`. -/
def isHangul (c : Char) : Bool :=
  0xAC00 ≤ c.toNat && c.toNat ≤ 0xD7A3

/-- The character class `[0-9a-z가-힣]` kept by the normalizer
(code points of '0'–'9' and 'a'–'z', plus the Hangul block). -/
def isAllowed (c : Char) : Bool :=
  (48 ≤ c.toNat && c.toNat ≤ 57) || (97 ≤ c.toNat && c.toNat ≤ 122) || isHangul c

/-- Python `str.lower()`, modelled on the ASCII range 'A'–'Z' (characters
outside the kept class `[0-9a-z가-힣]` are replaced by spaces immediately
afterwards, so only the ASCII behaviour is observable in the normalizer). -/
def lowerChar (c : Char) : Char :=
  if 65 ≤ c.toNat && c.toNat ≤ 90 then Char.ofNat (c.toNat + 32) else c

/-- Python `str.strip()`: drop leading and trailing whitespace. -/
def stripL (l : List Char) : List Char :=
  ((l.dropWhile pyIsSpace).reverse.dropWhile pyIsSpace).reverse

/-- Worker for `collapseRuns`; the flag records whether the previous character
belonged to the run currently being replaced. -/
def collapseAux (p : Char → Bool) (r : Char) : Bool → List Char → List Char
  | _, [] => []
  | prev, c :: cs =>
    if p c then
      if prev then collapseAux p r true cs
      else r :: collapseAux p r true cs
    else c :: collapseAux p r false cs

/-- `re.sub(pattern⁺, r, s)` for a single-character-class pattern: every
maximal run of characters satisfying `p` is replaced by the single
character `r`. -/
def collapseRuns (p : Char → Bool) (r : Char) (l : List Char) : List Char :=
  collapseAux p r false l

/-- Worker for `pySplit`, accumulating the current token in reverse. -/
def pySplitAux : List Char → List Char → List (List Char)
  | acc, [] => if acc.isEmpty then [] else [acc.reverse]
  | acc, c :: cs =>
    if pyIsSpace c then
      if acc.isEmpty then pySplitAux [] cs
      else acc.reverse :: pySplitAux [] cs
    else pySplitAux (c :: acc) cs

/-- Python `str.split()` with no argument: split on whitespace runs, dropping
empty tokens. -/
def pySplit (l : List Char) : List (List Char) :=
  pySplitAux [] l

/-- `normalize_text_ultra` on character lists, with the external
`unicodedata.normalize("NFKC", ·)` passed in as `nfkc`: strip, NFKC,
lower-case, collapse whitespace, replace runs outside `[0-9a-z가-힣]` by a
space, collapse whitespace and strip again. -/
def normTextL (nfkc : List Char → List Char) (l : List Char) : List Char :=
  let s1 := stripL l
  let s2 := nfkc s1
  let s3 := s2.map lowerChar
  let s4 := collapseRuns pyIsSpace ' ' s3
  let s5 := collapseRuns (fun c => !(isAllowed c)) ' ' s4
  stripL (collapseRuns pyIsSpace ' ' s5)

/-- `normalize_text_ultra` on strings.  (The non-string / NaN input branch of
the Python code stringifies its input first; the embedding takes the text
field as a string, with missing text fields represented by `""`.) -/
def normText (nfkc : List Char → List Char) (s : String) : String :=
  ⟨normTextL nfkc s.data⟩

/-- Case-insensitive character comparison used by `re.IGNORECASE` (modelled on
the ASCII range, as for `lowerChar`). -/
def ciEq (a b : Char) : Bool :=
  lowerChar a = lowerChar b

/-- Does `pat` occur case-insensitively at the head of `l`? -/
def ciHead (pat l : List Char) : Bool :=
  decide ((l.take pat.length).map lowerChar = pat.map lowerChar) &&
    decide (pat.length ≤ l.length)

/-- One `re.sub(re.escape(v), canon, s, flags=re.IGNORECASE)` call for a
non-empty literal pattern: scan left to right, replacing each
(non-overlapping) case-insensitive occurrence of `pat` by `rep`. -/
def replaceCIAux (pat rep : List Char) : List Char → List Char
  | [] => []
  | c :: cs =>
    if !pat.isEmpty && ciHead pat (c :: cs) then
      rep ++ replaceCIAux pat rep ((c :: cs).drop pat.length)
    else
      c :: replaceCIAux pat rep cs
termination_by l => l.length
decreasing_by
  · rename_i h
    simp only [ciHead, Bool.and_eq_true, Bool.not_eq_true', decide_eq_true_eq] at h
    have hp : pat.length ≠ 0 := by
      intro h0
      rw [List.length_eq_zero] at h0
      subst h0
      simp at h
    simp only [List.length_drop, List.length_cons]
    omega
  · simp [Nat.lt_succ_self]

/-- `re.sub` for a literal pattern; the empty pattern matches at every
position, interleaving the replacement everywhere (Python 3.7+ semantics). -/
def replaceCI (pat rep l : List Char) : List Char :=
  if pat.isEmpty then rep ++ (l.map (fun c => c :: rep)).flatten
  else replaceCIAux pat rep l

/-- `apply_bidir_synonyms_text`: for every synonym group `(canon, variants)`
in configuration order, replace every case-insensitive occurrence of each
variant substring by the canonical label; the empty string is returned
unchanged. -/
def applySynonyms (groups : List (String × List String)) (s : String) : String :=
  if s = "" then s
  else ⟨groups.foldl
         (fun acc g => g.2.foldl (fun acc2 v => replaceCI v.data g.1.data acc2) acc)
         s.data⟩

/-- Association-list counterpart of `COLOR_ALIASES.get(t, t)`. -/
def aliasGet (aliases : List (String × String)) (t : String) : String :=
  match aliases.find? (fun p => p.1 = t) with
  | some p => p.2
  | none => t

/-- `normalize_color_ultra`: normalize, split into tokens, map each token
through the color-alias table, re-join with single spaces. -/
def normColorL (nfkc : List Char → List Char) (aliases : List (String × String))
    (s : String) : String :=
  String.intercalate " "
    ((pySplit (normTextL nfkc s.data)).map (fun t => aliasGet aliases ⟨t⟩))

/-- `_normalize_size_token`: lower-case the token, then return the canonical
label of the first size-synonym group whose canonical label or variant list
matches the token exactly; otherwise return the token unchanged. -/
def sizeCanon (syns : List (String × List String)) (t : String) : String :=
  let tl : String := ⟨t.data.map lowerChar⟩
  match syns.find? (fun g => g.1 = tl || g.2.contains tl) with
  | some g => g.1
  | none => tl

/-- Insert into a Python-set modelled as a first-insertion-order list. -/
def addTok (l : List String) (t : String) : List String :=
  if t ∈ l then l else l ++ [t]

/-- Insertion for character-list valued sets (used for the per-token
parenthesis value set). -/
def addVal (l : List (List Char)) (v : List Char) : List (List Char) :=
  if v ∈ l then l else l ++ [v]

/-- The regex `^([^()]+)\(([^()]+)\)$` of `_extract_parentheses_values`:
split `outside(inside)` with non-empty paren-free content on both sides. -/
def parenSplit (t : List Char) : Option (List Char × List Char) :=
  let noParen : Char → Bool := fun c => !(c = '(' || c = ')')
  let outside := t.takeWhile noParen
  match t.dropWhile noParen with
  | '(' :: rest =>
    let inside := rest.takeWhile noParen
    if !outside.isEmpty && !inside.isEmpty && rest.dropWhile noParen = [')'] then
      some (outside, inside)
    else none
  | _ => none

/-- `_extract_parentheses_values` on one token: for an `outside(inside)` token
return the set `{outside.strip(), inside.strip()}` (dropping empty values),
otherwise the singleton set of the token itself. -/
def parenVals (tok : List Char) : List (List Char) :=
  match parenSplit tok with
  | some (o, i) =>
    let o := stripL o
    let i := stripL i
    let base := if o.isEmpty then [] else [o]
    if i.isEmpty then base else addVal base i
  | none => if tok.isEmpty then [] else [tok]

/-- Candidate size values of `extract_size_parts_ultra` after the NFKC step:
surround `~` with spaces, replace separator runs `[,/|]+` by a space,
collapse whitespace, strip, lower-case, split, and expand each token through
`parenVals` (skipping empty tokens). -/
def candVals (l : List Char) : List (List Char) :=
  let s1 := (l.map (fun c => if c = '~' then [' ', '~', ' '] else [c])).flatten
  let s2 := collapseRuns (fun c => c = ',' || c = '/' || c = '|') ' ' s1
  let s3 := (stripL (collapseRuns pyIsSpace ' ' s2)).map lowerChar
  (pySplit s3).foldl
    (fun acc tok =>
      let tok := stripL tok
      if tok.isEmpty then acc else acc ++ parenVals tok) []

/-- Body of the value loop of `extract_size_parts_ultra`: clean one candidate
value down to `[0-9a-z가-힣]`, and (unless nothing is left) canonicalize it
through the size-synonym table and insert it into the token set. -/
def addCleaned (syns : List (String × List String)) (acc : List String)
    (v : List Char) : List String :=
  let cleaned := v.filter isAllowed
  if cleaned.isEmpty then acc else addTok acc (sizeCanon syns ⟨cleaned⟩)

/-- Post-NFKC part of `extract_size_parts_ultra`: clean every candidate value,
canonicalize it and collect the results as a set. -/
def extractCore (syns : List (String × List String)) (l : List Char) : List String :=
  (candVals l).foldl (addCleaned syns) []

/-- Configuration of `PerfectMatcher.__init__` plus the two external library
functions the engine calls: `nfkc` stands for
`unicodedata.normalize("NFKC", ·)` and `nameSim` for
`rapidfuzz.fuzz.partial_ratio` (a similarity on the 0–100 scale). -/
structure MatcherConfig where
  nameScoreCutoff : ℚ
  weightBrand : ℚ
  weightName : ℚ
  weightColor : ℚ
  weightSize : ℚ
  nameSynonymGroups : List (String × List String)
  sizeSynonyms : List (String × List String)
  colorAliases : List (String × String)
  nfkc : List Char → List Char
  nameSim : String → String → ℚ

/-- `extract_size_parts_ultra`: NFKC-normalize, then `extractCore`. -/
def extractSizeTokens (cfg : MatcherConfig) (s : String) : List String :=
  extractCore cfg.sizeSynonyms (cfg.nfkc s.data)

/-- A raw dataset row with the four text attributes and the quantity cell.
`qty = some n` is a numeric cell (Python `int(...)` succeeds, value `n`);
`qty = none` is a missing or non-numeric cell on which `int(...)` raises. -/
structure RawRow where
  brand : String
  name : String
  color : String
  size : String
  qty : Option Int
deriving DecidableEq

/-- An in-memory tabular dataset; `hasQtyCol` models whether the `수량`
(quantity) column is present at all. -/
structure Dataset where
  rows : List RawRow
  hasQtyCol : Bool

/-- A row as seen by `calculate_match_confidence_perfect`: the raw fields plus
the optional precomputed normalized columns (`r_brand_n`, `r_name_n`,
`r_color_n`, `r_sizes_s`).  `none` models an absent column
(`Series.get` returns `None`). -/
structure RowView where
  raw : RawRow
  brandN : Option String
  nameN : Option String
  colorN : Option String
  sizes : Option (List String)

/-- Normalized brand column value computed by `_precompute_normalized_columns`. -/
def pBrand (cfg : MatcherConfig) (r : RawRow) : String :=
  normText cfg.nfkc r.brand

/-- Normalized and synonym-canonicalized product-name column value. -/
def pName (cfg : MatcherConfig) (r : RawRow) : String :=
  applySynonyms cfg.nameSynonymGroups (normText cfg.nfkc r.name)

/-- Normalized color column value. -/
def pColor (cfg : MatcherConfig) (r : RawRow) : String :=
  normColorL cfg.nfkc cfg.colorAliases r.color

/-- Size token set column value. -/
def pSizes (cfg : MatcherConfig) (r : RawRow) : List String :=
  extractSizeTokens cfg r.size

/-- A row after `_precompute_normalized_columns` (all normalized columns
present). -/
def precomputeRow (cfg : MatcherConfig) (r : RawRow) : RowView :=
  ⟨r, some (pBrand cfg r), some (pName cfg r), some (pColor cfg r), some (pSizes cfg r)⟩

/-- A row of a dataset that was never precomputed (the sequential matcher
passes raw dataframe rows to the scorer; every normalized-column access
returns `None`). -/
def rawView (r : RawRow) : RowView :=
  ⟨r, none, none, none, none⟩

/-- Python `row.get("r_brand_n") or normalize_text_ultra(row.get("브랜드",""))`:
fall back to re-normalizing the raw field when the column is absent or its
value is the (falsy) empty string. -/
def effBrand (cfg : MatcherConfig) (v : RowView) : String :=
  match v.brandN with
  | some s => if s = "" then normText cfg.nfkc v.raw.brand else s
  | none => normText cfg.nfkc v.raw.brand

/-- Effective product name; note that the fallback re-normalizes without the
synonym-canonicalization pass, exactly as in the source. -/
def effName (cfg : MatcherConfig) (v : RowView) : String :=
  match v.nameN with
  | some s => if s = "" then normText cfg.nfkc v.raw.name else s
  | none => normText cfg.nfkc v.raw.name

/-- Effective color value. -/
def effColor (cfg : MatcherConfig) (v : RowView) : String :=
  match v.colorN with
  | some s => if s = "" then normColorL cfg.nfkc cfg.colorAliases v.raw.color else s
  | none => normColorL cfg.nfkc cfg.colorAliases v.raw.color

/-- Effective size token set; only a literal `None` (absent column) triggers
re-extraction — an empty set does not, mirroring `if rs is None`. -/
def effSizes (cfg : MatcherConfig) (v : RowView) : List String :=
  match v.sizes with
  | some l => l
  | none => extractSizeTokens cfg v.raw.size

/-- `fast_fuzzy_match`: 0 when either string is empty, otherwise the partial
similarity. -/
def fastFuzzyMatch (cfg : MatcherConfig) (a b : String) : ℚ :=
  if a = "" || b = "" then 0 else cfg.nameSim a b

/-- The `match_details` score breakdown of an accepted pair. -/
structure MatchDetails where
  brandScore : ℚ
  nameScore : ℚ
  colorScore : ℚ
  sizeScore : ℚ
deriving DecidableEq

/-- Breakdown standing for the empty `{}` dict of the rejection branches. -/
def noDetails : MatchDetails := ⟨0, 0, 0, 0⟩

/-- `calculate_match_confidence_perfect`: gate on size-token intersection,
exact brand equality, exact color equality and the fuzzy name score against
the cutoff; on success return the weighted confidence sum with brand, color
and size scores fixed at 100. -/
def calcConfidence (cfg : MatcherConfig) (r m : RowView) : Bool × ℚ × MatchDetails :=
  let rb := effBrand cfg r
  let rn := effName cfg r
  let rc := effColor cfg r
  let rs := effSizes cfg r
  let mb := effBrand cfg m
  let mn := effName cfg m
  let mc := effColor cfg m
  let ms := effSizes cfg m
  if rs.isEmpty || ms.isEmpty || (rs.filter (fun s => s ∈ ms)).isEmpty then
    (false, 0, noDetails)
  else if rb ≠ mb then (false, 0, noDetails)
  else if rc ≠ mc then (false, 0, noDetails)
  else
    let nameScore := fastFuzzyMatch cfg rn mn
    if nameScore < cfg.nameScoreCutoff then (false, 0, noDetails)
    else
      let conf := 100 * cfg.weightBrand + nameScore * cfg.weightName +
                  100 * cfg.weightColor + 100 * cfg.weightSize
      (true, conf, ⟨100, nameScore, 100, 100⟩)

/-- A single emitted match record (one per matched unit). -/
structure MatchResult where
  receiptIdx : Nat
  matchedIdx : Nat
  confidenceScore : ℚ
  details : MatchDetails
deriving DecidableEq

/-- Index lookup `idx_bcs[(b, c, s)]` of `_build_candidate_index`: the
defaultdict is filled by iterating the catalog rows in order and appending
the row index under every one of the row's size tokens, so a lookup returns
exactly the in-order list of catalog indices whose normalized brand, color
and token set match. -/
def lookupBCS (mm : List (Nat × RawRow)) (cfg : MatcherConfig)
    (b c s : String) : List Nat :=
  (mm.filter (fun p =>
    decide (pBrand cfg p.2 = b) && decide (pColor cfg p.2 = c) &&
    decide (s ∈ pSizes cfg p.2))).map Prod.fst

/-- Index lookup `idx_bc[(b, c)]`. -/
def lookupBC (mm : List (Nat × RawRow)) (cfg : MatcherConfig)
    (b c : String) : List Nat :=
  (mm.filter (fun p =>
    decide (pBrand cfg p.2 = b) && decide (pColor cfg p.2 = c))).map Prod.fst

/-- Index lookup `idx_b[(b,)]`. -/
def lookupB (mm : List (Nat × RawRow)) (cfg : MatcherConfig) (b : String) : List Nat :=
  (mm.filter (fun p => decide (pBrand cfg p.2 = b))).map Prod.fst

/-- Tier-1 candidate union of `fuzzy_match_orders_blocked` (lines 301–304):
the concatenation of the `(b, c, s)` lookups over the order line's size
tokens (in token-set iteration order), empty when the token set is empty. -/
def rawTierOne (mm : List (Nat × RawRow)) (cfg : MatcherConfig)
    (b c : String) (sizes : List String) : List Nat :=
  if sizes.isEmpty then [] else (sizes.map (lookupBCS mm cfg b c)).flatten

/-- The tier chain of lines 301–310: the tier-1 union, falling back to the
`(b, c)` lookup and then the `(b,)` lookup only when the previously
accumulated list is empty. -/
def tierCandidates (mm : List (Nat × RawRow)) (cfg : MatcherConfig)
    (b c : String) (sizes : List String) : List Nat :=
  let t1 := rawTierOne mm cfg b c sizes
  if !t1.isEmpty then t1
  else
    let t2 := lookupBC mm cfg b c
    if !t2.isEmpty then t2 else lookupB mm cfg b

/-- The candidate list the blocked matcher actually scores: the selected
tier's candidates with the remaining-quantity filter of line 313 applied
after tier selection. -/
def codeCandidates (mm : List (Nat × RawRow)) (cfg : MatcherConfig)
    (b c : String) (sizes : List String) (mqty : Nat → Int) : List Nat :=
  (tierCandidates mm cfg b c sizes).filter (fun j => decide (0 < mqty j))

/-- Insert an element into a list sorted by descending key, after every
element of greater-or-equal key (the placement a stable descending sort
gives to the latest element). -/
def insertDescBy (key : α → ℚ) (a : α) : List α → List α
  | [] => [a]
  | b :: t => if key b ≤ key a then a :: b :: t else b :: insertDescBy key a t

/-- Stable sort by descending key: the model of Python's
`sort(key=…, reverse=True)` and of the score-descending order returned by
`rapidfuzz.process.extract` (both keep the original order of equal keys). -/
def sortDescBy (key : α → ℚ) : List α → List α
  | [] => []
  | a :: t => insertDescBy key a (sortDescBy key t)

/-- Row of the catalog dataframe by index (`matched_df.loc[m_idx]`); indices
fed to it are always in range, so the default row is never consulted. -/
def rowAt (mrows : List RawRow) (j : Nat) : RawRow :=
  mrows.getD j ⟨"", "", "", "", none⟩

/-- One receipt-line step of the blocked matcher, producing the accepted
candidate list in consumption order: tier retrieval, remaining-quantity
filter, `process.extract` pre-scoring of the candidate names (keeping
scores ≥ cutoff, sorted by descending score), confidence evaluation, and
the final stable sort by descending confidence. -/
def blockedLine (cfg : MatcherConfig) (mrows : List RawRow) (_rIdx : Nat)
    (r : RawRow) (mqty : Nat → Int) : List (Nat × ℚ × MatchDetails) :=
  let cids := codeCandidates mrows.enum cfg (pBrand cfg r) (pColor cfg r) (pSizes cfg r) mqty
  let scored := sortDescBy (fun p => p.2)
    ((cids.map (fun j => (j, cfg.nameSim (pName cfg r) (pName cfg (rowAt mrows j))))).filter
      (fun p => decide (cfg.nameScoreCutoff ≤ p.2)))
  let results := scored.filterMap (fun p =>
    let t := calcConfidence cfg (precomputeRow cfg r) (precomputeRow cfg (rowAt mrows p.1))
    if t.1 then some (p.1, t.2.1, t.2.2) else none)
  sortDescBy (fun q => q.2.1) results

/-- One receipt-line step of the sequential reference matcher: score every
catalog row (raw, un-precomputed views), keep accepted pairs with positive
remaining quantity, and stable-sort by descending confidence. -/
def seqLine (cfg : MatcherConfig) (mrows : List RawRow) (_rIdx : Nat)
    (r : RawRow) (mqty : Nat → Int) : List (Nat × ℚ × MatchDetails) :=
  let cands := mrows.enum.filterMap (fun p =>
    let t := calcConfidence cfg (rawView r) (rawView p.2)
    if t.1 && decide (0 < mqty p.1) then some (p.1, t.2.1, t.2.2) else none)
  sortDescBy (fun q => q.2.1) cands

/-- The greedy per-line allocation loop shared by both matchers: walk the
sorted accepted candidates, break once the line's remaining quantity is
exhausted, skip consumed catalog lines, allocate
`min(remaining, catalog remaining)` units, emit that many `MatchResult`
records and decrement both counters.  Returns the emitted records, the
line's final remaining quantity and the updated catalog quantities. -/
def allocate (rIdx : Nat) (remain : Int) (mqty : Nat → Int) :
    List (Nat × ℚ × MatchDetails) → List MatchResult × Int × (Nat → Int)
  | [] => ([], remain, mqty)
  | (j, conf, d) :: rest =>
    if remain ≤ 0 then ([], remain, mqty)
    else if mqty j ≤ 0 then allocate rIdx remain mqty rest
    else
      let q := min remain (mqty j)
      let out := allocate rIdx (remain - q)
        (fun k => if k = j then mqty j - q else mqty k) rest
      (List.replicate q.toNat ⟨rIdx, j, conf, d⟩ ++ out.1, out.2.1, out.2.2)

/-- The outer matching loop shared by both matchers, abstracted over the
per-line candidate computation: iterate the receipt lines in dataset order,
skip lines whose quantity is already ≤ 0, and thread the catalog
remaining-quantity state through the per-line allocations. (The in-place
decrement of `receipt_qty[r_idx]` in the source only touches the entry of
the line being processed, which is never read again, so the receipt
quantities are passed as the immutable initial map.) -/
def runLoop (line : Nat → RawRow → (Nat → Int) → List (Nat × ℚ × MatchDetails))
    (rqty : Nat → Int) : List (Nat × RawRow) → (Nat → Int) → List MatchResult
  | [], _ => []
  | (rIdx, r) :: rest, mqty =>
    let remain := rqty rIdx
    if remain ≤ 0 then runLoop line rqty rest mqty
    else
      let out := allocate rIdx remain mqty (line rIdx r mqty)
      out.1 ++ runLoop line rqty rest out.2.2

/-- The quantity dict comprehension
`{idx: int(df.at[idx, "수량"]) if "수량" in df.columns else 1 for idx in df.index}`:
if the quantity column is absent every line gets quantity 1; if it is
present, a missing or non-numeric cell makes `int(...)` raise an uncaught
exception, aborting the whole run (modelled by `Except.error`). -/
def parseQty (ds : Dataset) : Except Unit (List Int) :=
  if ds.hasQtyCol then
    ds.rows.mapM (fun r =>
      match r.qty with
      | some n => Except.ok n
      | none => Except.error ())
  else Except.ok (ds.rows.map (fun _ => 1))

/-- `fuzzy_match_orders_blocked` end to end: build both quantity maps (either
of which may abort), then run the blocked matching loop.  `receipt_qty` is
read with default 1 (`.get(r_idx, 1)`) and `matched_qty` with default 0
(`.get(mid, 0)`). -/
def runBlocked (cfg : MatcherConfig) (receipt matched : Dataset) :
    Except Unit (List MatchResult) := do
  let rq ← parseQty receipt
  let mq ← parseQty matched
  pure (runLoop (blockedLine cfg matched.rows) (fun i => rq.getD i 1)
    receipt.rows.enum (fun i => mq.getD i 0))

/-- `fuzzy_match_orders_perfect_sequential` end to end. -/
def runSeq (cfg : MatcherConfig) (receipt matched : Dataset) :
    Except Unit (List MatchResult) := do
  let rq ← parseQty receipt
  let mq ← parseQty matched
  pure (runLoop (seqLine cfg matched.rows) (fun i => rq.getD i 1)
    receipt.rows.enum (fun i => mq.getD i 0))

/-- Count of high-confidence results (≥ 90) in `generate_match_report`. -/
def highCount (rs : List MatchResult) : Nat :=
  rs.countP (fun mr => decide (90 ≤ mr.confidenceScore))

/-- Count of medium-confidence results (in [70, 90)). -/
def midCount (rs : List MatchResult) : Nat :=
  rs.countP (fun mr => decide (70 ≤ mr.confidenceScore ∧ mr.confidenceScore < 90))

/-- Count of low-confidence results (< 70). -/
def lowCount (rs : List MatchResult) : Nat :=
  rs.countP (fun mr => decide (mr.confidenceScore < 70))

/-- The report dict of `generate_match_report`; `matchDist` is the
`match_distribution` inner dict as an association list. -/
structure Report where
  totalMatches : Nat
  averageConfidence : ℚ
  matchDist : List (String × Nat)
deriving DecidableEq

/-- `generate_match_report`: an empty result list short-circuits to
`{"total_matches": 0, "average_confidence": 0, "match_distribution": {}}`
(note the empty distribution dict); otherwise the three confidence buckets
are counted and the average confidence computed. -/
def generateMatchReport (rs : List MatchResult) : Report :=
  if rs.isEmpty then ⟨0, 0, []⟩
  else
    ⟨rs.length,
     (rs.map (fun mr => mr.confidenceScore)).sum / rs.length,
     [("high_confidence", highCount rs),
      ("medium_confidence", midCount rs),
      ("low_confidence", lowCount rs)]⟩

/-- Boolean extensional equality of list-modelled sets. -/
def setEq (a b : List String) : Bool :=
  a.all (fun t => decide (t ∈ b)) && b.all (fun t => decide (t ∈ a))

/-- Candidate retrieval as the specification words it (§4.4): try the three
tiers in order and return the first whose result is non-empty AFTER
filtering out catalog lines with zero remaining quantity.  This definition
follows the spec's sentence, to be compared against `codeCandidates`. -/
def candidatesSpec (mm : List (Nat × RawRow)) (cfg : MatcherConfig)
    (b c : String) (sizes : List String) (mqty : Nat → Int) : List Nat :=
  let f : List Nat → List Nat := fun l => l.filter (fun j => decide (0 < mqty j))
  let t1 := f (rawTierOne mm cfg b c sizes)
  if !t1.isEmpty then t1
  else
    let t2 := f (lookupBC mm cfg b c)
    if !t2.isEmpty then t2 else f (lookupB mm cfg b)

/-- A concrete configuration for witnesses and counterexamples: the default
weights and cutoff of `PerfectMatcher.__init__`, empty synonym/alias
tables, NFKC modelled as the identity (the inputs used with it are
NFKC-fixed ASCII strings), and a constant partial-similarity of 100 (the
value `rapidfuzz.fuzz.partial_ratio` takes on the identical non-empty
name strings used with it). -/
def cfg0 : MatcherConfig :=
  { nameScoreCutoff := 70, weightBrand := mkRat 1 4, weightName := mkRat 7 20,
    weightColor := mkRat 1 4, weightSize := mkRat 3 20,
    nameSynonymGroups := [], sizeSynonyms := [], colorAliases := [],
    nfkc := id, nameSim := fun _ _ => 100 }

/-- Receipt line for the tie-break counterexamples: brand `a`, name `n`,
size tokens `{7, m}`, quantity 2. -/
def rcxRow : RawRow := ⟨"a", "n", "", "7 m", some 2⟩

/-- Catalog line 0: size token set `{m}`, quantity 1. -/
def catRow0 : RawRow := ⟨"a", "n", "", "m", some 1⟩

/-- Catalog line 1: size token set `{7}`, quantity 1. -/
def catRow1 : RawRow := ⟨"a", "n", "", "7", some 1⟩

/-- One-line receipt dataset for the tie-break counterexamples. -/
def dsReceipt : Dataset := ⟨[rcxRow], true⟩

/-- Two-line catalog dataset for the tie-break counterexamples. -/
def dsCatalog : Dataset := ⟨[catRow0, catRow1], true⟩

/-- Order line for the tier-fallback counterexample: size tokens `{7}`. -/
def tierRow : RawRow := ⟨"a", "n", "", "7", some 1⟩

/-- Catalog line 0 of the tier-fallback counterexample: matches the order
line's brand, color and size token but has zero remaining quantity. -/
def tierCat0 : RawRow := ⟨"a", "n", "", "7", some 0⟩

/-- Catalog line 1 of the tier-fallback counterexample: same brand and color,
non-intersecting size token, quantity 1 (a tier-2 candidate). -/
def tierCat1 : RawRow := ⟨"a", "n", "", "m", some 1⟩

/-- Remaining-quantity map of the tier-fallback counterexample. -/
def tierQty : Nat → Int := fun j => [(0 : Int), 1].getD j 0

/-- Receipt dataset with a present quantity column holding a non-numeric
cell (`int(...)` raises on it). -/
def dsBadQty : Dataset := ⟨[⟨"a", "n", "", "7", none⟩], true⟩

/-- Receipt dataset without a quantity column. -/
def dsNoQtyR : Dataset := ⟨[⟨"a", "n", "", "7", none⟩], false⟩

/-- Catalog dataset without a quantity column. -/
def dsNoQtyM : Dataset := ⟨[⟨"a", "n", "", "7", none⟩], false⟩

/-- Decidable equality of run outcomes. -/
instance {ε α : Type} [DecidableEq ε] [DecidableEq α] : DecidableEq (Except ε α) := fun a b =>
  match a, b with
  | .error x, .error y =>
    if h : x = y then isTrue (congrArg Except.error h)
    else isFalse (fun he => h (Except.error.inj he))
  | .error _, .ok _ => isFalse (fun he => Except.noConfusion he)
  | .ok _, .error _ => isFalse (fun he => Except.noConfusion he)
  | .ok x, .ok y =>
    if h : x = y then isTrue (congrArg Except.ok h)
    else isFalse (fun he => h (Except.ok.inj he))

/-! ### Theorems -/

attribute [local semireducible] Rat.add Rat.mul

/-- C6: on the empty result list `generate_match_report` returns total 0 and
average confidence 0, but its `match_distribution` is the empty dict — it
contains none of the three bucket keys, rather than zero counts for each
(the callers in `main()` and the UI layer subscript those keys
unconditionally, so the empty report crashes them). -/
theorem C6_empty_report_eval :
    generateMatchReport [] = ⟨0, 0, []⟩ ∧
    (generateMatchReport []).matchDist.lookup "high_confidence" = none ∧
    (generateMatchReport []).matchDist.lookup "medium_confidence" = none ∧
    (generateMatchReport []).matchDist.lookup "low_confidence" = none := by
  refine ⟨rfl, rfl, rfl, rfl⟩

/-- C2 (counterexample): with one tier-1 catalog candidate of zero remaining
quantity and a tier-2 candidate of positive quantity, the code's candidate
list is empty — tier-1 was selected before the quantity filter and the next
tier is NOT consulted — while the spec's tier-by-tier-filtered retrieval
returns the tier-2 candidate. -/
theorem C2_counterexample :
    rawTierOne [(0, tierCat0), (1, tierCat1)] cfg0 (pBrand cfg0 tierRow)
        (pColor cfg0 tierRow) (pSizes cfg0 tierRow) = [0] ∧
    codeCandidates [(0, tierCat0), (1, tierCat1)] cfg0 (pBrand cfg0 tierRow)
        (pColor cfg0 tierRow) (pSizes cfg0 tierRow) tierQty = [] ∧
    candidatesSpec [(0, tierCat0), (1, tierCat1)] cfg0 (pBrand cfg0 tierRow)
        (pColor cfg0 tierRow) (pSizes cfg0 tierRow) tierQty = [1] := by
  refine ⟨by decide, by decide, by decide⟩

/-- C3 (counterexample): a present quantity column holding a non-numeric cell
makes `int(...)` raise outside any handler, aborting both matching runs
instead of being treated as quantity 1. -/
theorem C3_counterexample :
    runBlocked cfg0 dsBadQty dsCatalog = .error () ∧
    runSeq cfg0 dsBadQty dsCatalog = .error () := by
  refine ⟨by decide, by decide⟩

/-- C5 (counterexample): on a receipt line with size tokens `{7, m}` and two
equally-confident catalog candidates (line 0 carrying token `m`, line 1
carrying token `7`), the blocked matcher consumes catalog line 1 before
line 0 — the tie between equal confidences is broken by tier-1 retrieval
order (the size-token iteration order), not by original catalog-line
order. -/
theorem C5_counterexample :
    runBlocked cfg0 dsReceipt dsCatalog =
      .ok [⟨0, 1, 100, ⟨100, 100, 100, 100⟩⟩,
           ⟨0, 0, 100, ⟨100, 100, 100, 100⟩⟩] := by
  decide

/-- C9 (counterexample): on the same input the sequential reference matcher
consumes catalog line 0 first, so the two matchers produce different
`MatchResult` sequences. -/
theorem C9_counterexample :
    runSeq cfg0 dsReceipt dsCatalog =
      .ok [⟨0, 0, 100, ⟨100, 100, 100, 100⟩⟩,
           ⟨0, 1, 100, ⟨100, 100, 100, 100⟩⟩] ∧
    runBlocked cfg0 dsReceipt dsCatalog ≠ runSeq cfg0 dsReceipt dsCatalog := by
  refine ⟨by decide, by decide⟩

/-- C2 (amended): candidate retrieval selects the first tier whose RAW result
is non-empty — tier 1 the union over the line's size tokens, then the
`(brand, color)` lookup, then the `(brand)` lookup — and only then filters
out catalog lines with zero remaining quantity; a selected tier whose
candidates all have zero remaining quantity yields an empty candidate list
without consulting the next tier. -/
theorem C2_amended_tier_selection_before_qty_filter
    (mm : List (Nat × RawRow)) (cfg : MatcherConfig) (b c : String)
    (sizes : List String) (mqty : Nat → Int) :
    (rawTierOne mm cfg b c sizes ≠ [] →
      codeCandidates mm cfg b c sizes mqty =
        (rawTierOne mm cfg b c sizes).filter (fun j => decide (0 < mqty j))) ∧
    (rawTierOne mm cfg b c sizes = [] → lookupBC mm cfg b c ≠ [] →
      codeCandidates mm cfg b c sizes mqty =
        (lookupBC mm cfg b c).filter (fun j => decide (0 < mqty j))) ∧
    (rawTierOne mm cfg b c sizes = [] → lookupBC mm cfg b c = [] →
      codeCandidates mm cfg b c sizes mqty =
        (lookupB mm cfg b).filter (fun j => decide (0 < mqty j))) := by
  unfold codeCandidates tierCandidates
  refine ⟨fun h1 => ?_, fun h1 h2 => ?_, fun h1 h2 => ?_⟩
  · simp [List.isEmpty_eq_false_iff_exists_mem.mpr
      (List.exists_mem_of_ne_nil _ h1)]
  · simp [h1, List.isEmpty_eq_false_iff_exists_mem.mpr
      (List.exists_mem_of_ne_nil _ h2)]
  · simp [h1, h2]

/-- C2 (amended, witness): on the tier-fallback counterexample data, tier 1 is
selected and the quantity filter is applied to it. -/
theorem C2_amended_tier_selection_witness :
    codeCandidates [(0, tierCat0), (1, tierCat1)] cfg0 (pBrand cfg0 tierRow)
        (pColor cfg0 tierRow) (pSizes cfg0 tierRow) tierQty =
      (rawTierOne [(0, tierCat0), (1, tierCat1)] cfg0 (pBrand cfg0 tierRow)
        (pColor cfg0 tierRow) (pSizes cfg0 tierRow)).filter
          (fun j => decide (0 < tierQty j)) :=
  (C2_amended_tier_selection_before_qty_filter [(0, tierCat0), (1, tierCat1)]
    cfg0 (pBrand cfg0 tierRow) (pColor cfg0 tierRow) (pSizes cfg0 tierRow)
    tierQty).1 (by decide)

/-- C3 (amended): only a dataset whose quantity COLUMN is absent has every
line's quantity default to 1, in which case both matching runs complete
normally; a present column with a missing or non-numeric cell aborts the
run (see the counterexample). -/
theorem C3_amended_missing_column_defaults_one
    (cfg : MatcherConfig) (receipt matched : Dataset)
    (hr : receipt.hasQtyCol = false) (hm : matched.hasQtyCol = false) :
    parseQty receipt = .ok (receipt.rows.map (fun _ => 1)) ∧
    parseQty matched = .ok (matched.rows.map (fun _ => 1)) ∧
    (∃ res, runBlocked cfg receipt matched = .ok res) ∧
    (∃ res, runSeq cfg receipt matched = .ok res) := by
  have h1 : parseQty receipt = .ok (receipt.rows.map (fun _ => 1)) := by
    unfold parseQty
    rw [hr]
    simp
  have h2 : parseQty matched = .ok (matched.rows.map (fun _ => 1)) := by
    unfold parseQty
    rw [hm]
    simp
  refine ⟨h1, h2, ?_, ?_⟩
  · refine ⟨runLoop (blockedLine cfg matched.rows)
      (fun i => (receipt.rows.map (fun _ => (1 : Int))).getD i 1)
      receipt.rows.enum
      (fun i => (matched.rows.map (fun _ => (1 : Int))).getD i 0), ?_⟩
    unfold runBlocked
    rw [h1, h2]
    rfl
  · refine ⟨runLoop (seqLine cfg matched.rows)
      (fun i => (receipt.rows.map (fun _ => (1 : Int))).getD i 1)
      receipt.rows.enum
      (fun i => (matched.rows.map (fun _ => (1 : Int))).getD i 0), ?_⟩
    unfold runSeq
    rw [h1, h2]
    rfl

/-- C3 (amended, witness): concrete datasets without a quantity column are
parsed to all-ones quantities and both runs complete. -/
theorem C3_amended_missing_column_witness :
    parseQty dsNoQtyR = .ok (dsNoQtyR.rows.map (fun _ => 1)) ∧
    parseQty dsNoQtyM = .ok (dsNoQtyM.rows.map (fun _ => 1)) ∧
    (∃ res, runBlocked cfg0 dsNoQtyR dsNoQtyM = .ok res) ∧
    (∃ res, runSeq cfg0 dsNoQtyR dsNoQtyM = .ok res) :=
  C3_amended_missing_column_defaults_one cfg0 dsNoQtyR dsNoQtyM rfl rfl

/-- C4: the confidence scorer returns `accepted = false` with confidence 0
whenever the two size-token sets do not intersect, or the normalized brands
differ, or the normalized colors differ, or the partial fuzzy name ratio is
below the configured cutoff; when all four gates pass it returns
`accepted = true` with confidence equal to the un-normalized weighted sum
`brand_weight·100 + name_weight·name_ratio + color_weight·100 +
size_weight·100`. -/
theorem C4_scorer_gates_and_weighted_sum (cfg : MatcherConfig) (r m : RowView) :
    ((∀ s ∈ effSizes cfg r, s ∉ effSizes cfg m) ∨
     effBrand cfg r ≠ effBrand cfg m ∨
     effColor cfg r ≠ effColor cfg m ∨
     fastFuzzyMatch cfg (effName cfg r) (effName cfg m) < cfg.nameScoreCutoff →
      calcConfidence cfg r m = (false, 0, noDetails)) ∧
    ((∃ s ∈ effSizes cfg r, s ∈ effSizes cfg m) →
     effBrand cfg r = effBrand cfg m →
     effColor cfg r = effColor cfg m →
     cfg.nameScoreCutoff ≤ fastFuzzyMatch cfg (effName cfg r) (effName cfg m) →
      calcConfidence cfg r m =
        (true,
         cfg.weightBrand * 100 +
           cfg.weightName * fastFuzzyMatch cfg (effName cfg r) (effName cfg m) +
           cfg.weightColor * 100 + cfg.weightSize * 100,
         ⟨100, fastFuzzyMatch cfg (effName cfg r) (effName cfg m), 100, 100⟩)) := by
  constructor
  · intro h
    simp only [calcConfidence]
    split_ifs with h1 h2 h3 h4
    · rfl
    · rfl
    · rfl
    · rfl
    · exfalso
      have h1' : (¬effSizes cfg r = [] ∧ ¬effSizes cfg m = []) ∧
          ∃ x ∈ effSizes cfg r, x ∈ effSizes cfg m := by
        simpa [List.isEmpty_iff, not_or] using h1
      obtain ⟨-, x, hxr, hxm⟩ := h1'
      rcases h with hd | hb | hc | hn
      · exact hd x hxr hxm
      · exact h2 hb
      · exact h3 hc
      · exact h4 hn
  · intro hs hb hc hn
    obtain ⟨s, hsr, hsm⟩ := hs
    simp only [calcConfidence]
    split_ifs with h1 h2 h3 h4
    · exfalso
      have h1' : (effSizes cfg r = [] ∨ effSizes cfg m = []) ∨
          ∀ a ∈ effSizes cfg r, a ∉ effSizes cfg m := by
        simpa [List.isEmpty_iff] using h1
      rcases h1' with (h1' | h1') | h1'
      · rw [h1'] at hsr
        exact absurd hsr (List.not_mem_nil s)
      · rw [h1'] at hsm
        exact absurd hsm (List.not_mem_nil s)
      · exact h1' s hsr hsm
    · exact absurd hb h2
    · exact absurd hc h3
    · exact absurd hn (not_le.mpr h4)
    · have harith :
        (100 : ℚ) * cfg.weightBrand +
            fastFuzzyMatch cfg (effName cfg r) (effName cfg m) * cfg.weightName +
            100 * cfg.weightColor + 100 * cfg.weightSize =
          cfg.weightBrand * 100 +
            cfg.weightName * fastFuzzyMatch cfg (effName cfg r) (effName cfg m) +
            cfg.weightColor * 100 + cfg.weightSize * 100 := by
        ring
      rw [harith]

/-- C4 (witness): the four gates pass on the concrete pair
(`rcxRow`, `catRow0`) under `cfg0`, and the scorer returns the weighted
sum. -/
theorem C4_scorer_witness :
    calcConfidence cfg0 (precomputeRow cfg0 rcxRow) (precomputeRow cfg0 catRow0) =
      (true,
       cfg0.weightBrand * 100 +
         cfg0.weightName * fastFuzzyMatch cfg0
           (effName cfg0 (precomputeRow cfg0 rcxRow))
           (effName cfg0 (precomputeRow cfg0 catRow0)) +
         cfg0.weightColor * 100 + cfg0.weightSize * 100,
       ⟨100,
        fastFuzzyMatch cfg0 (effName cfg0 (precomputeRow cfg0 rcxRow))
          (effName cfg0 (precomputeRow cfg0 catRow0)), 100, 100⟩) :=
  (C4_scorer_gates_and_weighted_sum cfg0 (precomputeRow cfg0 rcxRow)
      (precomputeRow cfg0 catRow0)).2
    (by decide) (by decide) (by decide) (by decide)

/-- Every record `allocate` emits corresponds to one of its candidate triples
and carries the processed line's receipt index. -/
theorem allocate_mem {rIdx : Nat} {remain : Int} {mqty : Nat → Int}
    {cands : List (Nat × ℚ × MatchDetails)} {mr : MatchResult}
    (h : mr ∈ (allocate rIdx remain mqty cands).1) :
    ∃ c ∈ cands, mr = ⟨rIdx, c.1, c.2.1, c.2.2⟩ := by
  induction cands generalizing remain mqty with
  | nil => simp [allocate] at h
  | cons c rest ih =>
    obtain ⟨j, conf, d⟩ := c
    simp only [allocate] at h
    split_ifs at h with h1 h2
    · simp at h
    · obtain ⟨c', hc', he⟩ := ih h
      exact ⟨c', List.mem_cons_of_mem _ hc', he⟩
    · rw [List.mem_append] at h
      rcases h with h | h
      · rw [List.eq_of_mem_replicate h]
        exact ⟨(j, conf, d), List.mem_cons_self _ _, rfl⟩
      · obtain ⟨c', hc', he⟩ := ih h
        exact ⟨c', List.mem_cons_of_mem _ hc', he⟩

/-- Counting matched-index hits in a replicated record block. -/
theorem countP_match_replicate (n rIdx j0 j : Nat) (conf : ℚ) (d : MatchDetails) :
    (List.replicate n (⟨rIdx, j0, conf, d⟩ : MatchResult)).countP
        (fun mr => decide (mr.matchedIdx = j)) = if j0 = j then n else 0 := by
  rw [List.countP_replicate]
  by_cases h : j0 = j <;> simp [h]

/-- Allocation accounting for one catalog line: the records emitted for
catalog index `j` are exactly the quantity drained from `j`, the remaining
quantity never increases, and it stays non-negative. -/
theorem allocate_count (rIdx : Nat) (remain : Int) (mqty : Nat → Int)
    (cands : List (Nat × ℚ × MatchDetails)) (j : Nat) :
    ((allocate rIdx remain mqty cands).1.countP
        (fun mr => decide (mr.matchedIdx = j)) : Int) =
      mqty j - (allocate rIdx remain mqty cands).2.2 j ∧
    (allocate rIdx remain mqty cands).2.2 j ≤ mqty j ∧
    (0 ≤ mqty j → 0 ≤ (allocate rIdx remain mqty cands).2.2 j) := by
  induction cands generalizing remain mqty with
  | nil => simp [allocate]
  | cons c rest ih =>
    obtain ⟨j0, conf, d⟩ := c
    simp only [allocate]
    split_ifs with h1 h2
    · simp
    · exact ih remain mqty
    · have hq1 : (1 : Int) ≤ min remain (mqty j0) := by omega
      obtain ⟨ihc, ihle, ihnn⟩ :=
        ih (remain - min remain (mqty j0))
          (fun k => if k = j0 then mqty j0 - min remain (mqty j0) else mqty k)
      simp only [List.countP_append, countP_match_replicate]
      by_cases hj : j = j0
      · subst hj
        simp only [if_true] at ihc ihle ihnn
        rw [if_pos rfl, Nat.cast_add,
          Int.toNat_of_nonneg (show (0 : Int) ≤ min remain (mqty j) by omega)]
        refine ⟨by omega, by omega, fun h => ihnn (by omega)⟩
      · have hj' : j0 ≠ j := fun he => hj he.symm
        simp only [if_neg hj] at ihc ihle ihnn
        rw [if_neg hj', Nat.cast_add]
        push_cast
        exact ⟨by omega, ihle, ihnn⟩

/-- Allocation accounting for the order line: the number of emitted records is
the drained order quantity, which never exceeds the initial remaining
quantity and never becomes negative. -/
theorem allocate_length (rIdx : Nat) (remain : Int) (mqty : Nat → Int)
    (cands : List (Nat × ℚ × MatchDetails)) :
    ((allocate rIdx remain mqty cands).1.length : Int) =
      remain - (allocate rIdx remain mqty cands).2.1 ∧
    (allocate rIdx remain mqty cands).2.1 ≤ remain ∧
    (0 ≤ remain → 0 ≤ (allocate rIdx remain mqty cands).2.1) := by
  induction cands generalizing remain mqty with
  | nil => simp [allocate]
  | cons c rest ih =>
    obtain ⟨j0, conf, d⟩ := c
    simp only [allocate]
    split_ifs with h1 h2
    · simp
    · exact ih remain mqty
    · have hq1 : (1 : Int) ≤ min remain (mqty j0) := by omega
      have hqle : min remain (mqty j0) ≤ remain := min_le_left _ _
      obtain ⟨ihc, ihle, ihnn⟩ :=
        ih (remain - min remain (mqty j0))
          (fun k => if k = j0 then mqty j0 - min remain (mqty j0) else mqty k)
      simp only [List.length_append, List.length_replicate]
      push_cast
      refine ⟨by omega, by omega, fun h => ihnn (by omega)⟩

/-- Every emitted record of the matching loop comes from the candidate list of
one of the processed lines and carries that line's index. -/
theorem runLoop_mem {line : Nat → RawRow → (Nat → Int) → List (Nat × ℚ × MatchDetails)}
    {rqty : Nat → Int} :
    ∀ {rows : List (Nat × RawRow)} {mqty : Nat → Int} {mr : MatchResult},
      mr ∈ runLoop line rqty rows mqty →
      ∃ i r q c, (i, r) ∈ rows ∧ c ∈ line i r q ∧ mr = ⟨i, c.1, c.2.1, c.2.2⟩ := by
  intro rows
  induction rows with
  | nil =>
    intro mqty mr h
    simp [runLoop] at h
  | cons p rest ih =>
    intro mqty mr h
    obtain ⟨i0, r0⟩ := p
    simp only [runLoop] at h
    split_ifs at h with h1
    · obtain ⟨i, r, q, c, hmem, hc, he⟩ := ih h
      exact ⟨i, r, q, c, List.mem_cons_of_mem _ hmem, hc, he⟩
    · rw [List.mem_append] at h
      rcases h with h | h
      · obtain ⟨c, hc, he⟩ := allocate_mem h
        exact ⟨i0, r0, mqty, c, List.mem_cons_self _ _, hc, he⟩
      · obtain ⟨i, r, q, c, hmem, hc, he⟩ := ih h
        exact ⟨i, r, q, c, List.mem_cons_of_mem _ hmem, hc, he⟩

/-- The records referencing catalog line `j` never exceed `j`'s initial
remaining quantity. -/
theorem runLoop_matched_count
    (line : Nat → RawRow → (Nat → Int) → List (Nat × ℚ × MatchDetails))
    (rqty : Nat → Int) :
    ∀ (rows : List (Nat × RawRow)) (mqty : Nat → Int) (j : Nat), 0 ≤ mqty j →
      ((runLoop line rqty rows mqty).countP
          (fun mr => decide (mr.matchedIdx = j)) : Int) ≤ mqty j := by
  intro rows
  induction rows with
  | nil =>
    intro mqty j h
    simpa [runLoop] using h
  | cons p rest ih =>
    intro mqty j hj
    obtain ⟨i0, r0⟩ := p
    simp only [runLoop]
    split_ifs with h1
    · exact ih mqty j hj
    · rw [List.countP_append]
      obtain ⟨hc, hle, hnn⟩ := allocate_count i0 (rqty i0) mqty (line i0 r0 mqty) j
      have hrec := ih (allocate i0 (rqty i0) mqty (line i0 r0 mqty)).2.2 j (hnn hj)
      push_cast
      omega

/-- The records referencing order line `i` never exceed `i`'s initial
quantity (as long as the processed line indices are pairwise distinct). -/
theorem runLoop_receipt_count
    (line : Nat → RawRow → (Nat → Int) → List (Nat × ℚ × MatchDetails))
    (rqty : Nat → Int) :
    ∀ (rows : List (Nat × RawRow)) (mqty : Nat → Int) (i : Nat),
      rows.Pairwise (fun a b => a.1 ≠ b.1) →
      ((runLoop line rqty rows mqty).countP
          (fun mr => decide (mr.receiptIdx = i)) : Int) ≤ max (rqty i) 0 := by
  intro rows
  induction rows with
  | nil =>
    intro mqty i _
    simp [runLoop]
  | cons p rest ih =>
    intro mqty i hpw
    obtain ⟨i0, r0⟩ := p
    rw [List.pairwise_cons] at hpw
    obtain ⟨hne, hpw'⟩ := hpw
    simp only [runLoop]
    split_ifs with h1
    · exact ih mqty i hpw'
    · rw [List.countP_append]
      by_cases hi : i = i0
      · subst hi
        have hcle := List.countP_le_length
          (p := fun mr => decide (mr.receiptIdx = i))
          (l := (allocate i (rqty i) mqty (line i r0 mqty)).1)
        obtain ⟨hlen, hle, hnn⟩ := allocate_length i (rqty i) mqty (line i r0 mqty)
        have hzero : (runLoop line rqty rest
            (allocate i (rqty i) mqty (line i r0 mqty)).2.2).countP
            (fun mr => decide (mr.receiptIdx = i)) = 0 := by
          rw [List.countP_eq_zero]
          intro mr hmr
          obtain ⟨i', r', q', c', hmem, hc, he⟩ := runLoop_mem hmr
          subst he
          simp only [decide_eq_true_eq]
          intro hEq
          exact hne (i', r') hmem (hEq.symm)
        rw [hzero]
        push_cast
        omega
      · have hzero : (allocate i0 (rqty i0) mqty (line i0 r0 mqty)).1.countP
            (fun mr => decide (mr.receiptIdx = i)) = 0 := by
          rw [List.countP_eq_zero]
          intro mr hmr
          obtain ⟨c, hc, he⟩ := allocate_mem hmr
          subst he
          simp only [decide_eq_true_eq]
          intro hEq
          exact hi hEq.symm
        rw [hzero]
        have hrec := ih (allocate i0 (rqty i0) mqty (line i0 r0 mqty)).2.2 i hpw'
        push_cast
        omega

/-- Fetching with a non-negative default from a list of non-negative values is
non-negative. -/
theorem getD_nonneg {l : List Int} (h : ∀ x ∈ l, 0 ≤ x) {d : Int} (hd : 0 ≤ d)
    (i : Nat) : 0 ≤ l.getD i d := by
  rw [List.getD_eq_getElem?_getD]
  cases hq : l[i]? with
  | none => simpa [hq] using hd
  | some x => simpa [hq] using h x (List.getElem?_mem hq)

/-- The indices produced by `List.enumFrom` are pairwise distinct. -/
theorem enumFrom_pairwise_ne (l : List RawRow) :
    ∀ n, (List.enumFrom n l).Pairwise (fun a b => a.1 ≠ b.1) := by
  induction l with
  | nil => intro n; simp
  | cons x t ih =>
    intro n
    simp only [List.enumFrom]
    rw [List.pairwise_cons]
    refine ⟨fun b hb => ?_, ih (n + 1)⟩
    have := (List.mem_enumFrom hb).1
    simp only [] at this ⊢
    omega

/-- The indices produced by `List.enum` are pairwise distinct. -/
theorem enum_pairwise_ne (l : List RawRow) :
    l.enum.Pairwise (fun a b => a.1 ≠ b.1) := by
  rw [List.enum_eq_enumFrom]
  exact enumFrom_pairwise_ne l 0

/-- C1: for every completed run of either matcher (on datasets whose declared
quantities are non-negative, per the data model), the number of emitted
`MatchResult` records referencing an order line never exceeds that line's
original quantity, and the number referencing a catalog line never exceeds
its original stock quantity. -/
theorem C1_no_overallocation (cfg : MatcherConfig) (receipt matched : Dataset)
    (rq mq : List Int) (res : List MatchResult)
    (hrq : parseQty receipt = .ok rq) (hmq : parseQty matched = .ok mq)
    (hrnn : ∀ x ∈ rq, 0 ≤ x) (hmnn : ∀ x ∈ mq, 0 ≤ x)
    (hrun : runBlocked cfg receipt matched = .ok res ∨
            runSeq cfg receipt matched = .ok res) :
    (∀ i, (res.countP (fun mr => decide (mr.receiptIdx = i)) : Int) ≤ rq.getD i 1) ∧
    (∀ j, (res.countP (fun mr => decide (mr.matchedIdx = j)) : Int) ≤ mq.getD j 0) := by
  have key : ∀ line : Nat → RawRow → (Nat → Int) → List (Nat × ℚ × MatchDetails),
      res = runLoop line (fun i => rq.getD i 1) receipt.rows.enum
        (fun j => mq.getD j 0) →
      (∀ i, (res.countP (fun mr => decide (mr.receiptIdx = i)) : Int) ≤ rq.getD i 1) ∧
      (∀ j, (res.countP (fun mr => decide (mr.matchedIdx = j)) : Int) ≤ mq.getD j 0) := by
    intro line hres
    constructor
    · intro i
      have h1 := runLoop_receipt_count line (fun i => rq.getD i 1)
        receipt.rows.enum (fun j => mq.getD j 0) i (enum_pairwise_ne receipt.rows)
      have h2 : (0 : Int) ≤ rq.getD i 1 := getD_nonneg hrnn (by norm_num) i
      rw [← hres] at h1
      have h1' : (res.countP (fun mr => decide (mr.receiptIdx = i)) : Int) ≤
          max (rq.getD i 1) 0 := h1
      omega
    · intro j
      have h1 := runLoop_matched_count line (fun i => rq.getD i 1)
        receipt.rows.enum (fun j => mq.getD j 0) j (getD_nonneg hmnn le_rfl j)
      rw [← hres] at h1
      exact h1
  rcases hrun with h | h
  · have hb : runBlocked cfg receipt matched =
        .ok (runLoop (blockedLine cfg matched.rows) (fun i => rq.getD i 1)
          receipt.rows.enum (fun j => mq.getD j 0)) := by
      unfold runBlocked
      rw [hrq, hmq]
      rfl
    rw [hb] at h
    exact key _ (Except.ok.inj h).symm
  · have hb : runSeq cfg receipt matched =
        .ok (runLoop (seqLine cfg matched.rows) (fun i => rq.getD i 1)
          receipt.rows.enum (fun j => mq.getD j 0)) := by
      unfold runSeq
      rw [hrq, hmq]
      rfl
    rw [hb] at h
    exact key _ (Except.ok.inj h).symm

/-- C1 (witness): on the concrete tie-break datasets the blocked run completes
and no line is over-allocated. -/
theorem C1_no_overallocation_witness :
    (∀ i, ((Except.ok
        [(⟨0, 1, 100, ⟨100, 100, 100, 100⟩⟩ : MatchResult),
         ⟨0, 0, 100, ⟨100, 100, 100, 100⟩⟩] : Except Unit (List MatchResult)).toOption.getD []
        |>.countP (fun mr => decide (mr.receiptIdx = i)) : Int) ≤ [(2 : Int)].getD i 1) ∧
    (∀ j, ((Except.ok
        [(⟨0, 1, 100, ⟨100, 100, 100, 100⟩⟩ : MatchResult),
         ⟨0, 0, 100, ⟨100, 100, 100, 100⟩⟩] : Except Unit (List MatchResult)).toOption.getD []
        |>.countP (fun mr => decide (mr.matchedIdx = j)) : Int) ≤ [(1 : Int), 1].getD j 0) :=
  C1_no_overallocation cfg0 dsReceipt dsCatalog [2] [1, 1]
    [⟨0, 1, 100, ⟨100, 100, 100, 100⟩⟩, ⟨0, 0, 100, ⟨100, 100, 100, 100⟩⟩]
    (by decide) (by decide) (by decide) (by decide)
    (Or.inl (by decide))

/-- Stable descending insertion is a permutation of consing. -/
theorem insertDescBy_perm (key : α → ℚ) (a : α) (l : List α) :
    List.Perm (insertDescBy key a l) (a :: l) := by
  induction l with
  | nil => exact List.Perm.refl _
  | cons b t ih =>
    simp only [insertDescBy]
    split_ifs with h
    · exact List.Perm.refl _
    · exact (ih.cons b).trans (List.Perm.swap a b t)

/-- The stable descending sort is a permutation of its input. -/
theorem sortDescBy_perm (key : α → ℚ) (l : List α) : List.Perm (sortDescBy key l) l := by
  induction l with
  | nil => exact List.Perm.refl _
  | cons a t ih => exact (insertDescBy_perm key a (sortDescBy key t)).trans (ih.cons a)

/-- Membership is invariant under the stable descending sort. -/
theorem mem_sortDescBy {key : α → ℚ} {x : α} {l : List α} :
    x ∈ sortDescBy key l ↔ x ∈ l :=
  (sortDescBy_perm key l).mem_iff

/-- An accepted scorer result determines the confidence: it is the weighted
sum over a name score that passed the cutoff and is either 0 or a value of
the external partial-similarity function. -/
theorem calc_true_conf {cfg : MatcherConfig} {r m : RowView} {conf : ℚ}
    {d : MatchDetails} (h : calcConfidence cfg r m = (true, conf, d)) :
    ∃ ns, cfg.nameScoreCutoff ≤ ns ∧
      (ns = 0 ∨ ns = cfg.nameSim (effName cfg r) (effName cfg m)) ∧
      conf = 100 * cfg.weightBrand + ns * cfg.weightName +
        100 * cfg.weightColor + 100 * cfg.weightSize := by
  simp only [calcConfidence] at h
  split_ifs at h with h1 h2 h3 h4
  · simp at h
  · simp at h
  · simp at h
  · simp at h
  · refine ⟨fastFuzzyMatch cfg (effName cfg r) (effName cfg m), not_lt.mp h4, ?_, ?_⟩
    · unfold fastFuzzyMatch
      split_ifs with he
      · exact Or.inl rfl
      · exact Or.inr rfl
    · have := (Prod.mk.injEq _ _ _ _).mp h
      have h2' := (Prod.mk.injEq _ _ _ _).mp this.2
      exact h2'.1.symm

/-- Every candidate triple the blocked matcher feeds to the allocator is an
accepted scorer output on precomputed row views. -/
theorem blockedLine_calc {cfg : MatcherConfig} {mrows : List RawRow} {i : Nat}
    {r : RawRow} {mqty : Nat → Int} {x : Nat × ℚ × MatchDetails}
    (hx : x ∈ blockedLine cfg mrows i r mqty) :
    calcConfidence cfg (precomputeRow cfg r) (precomputeRow cfg (rowAt mrows x.1)) =
      (true, x.2.1, x.2.2) := by
  simp only [blockedLine] at hx
  rw [mem_sortDescBy, List.mem_filterMap] at hx
  obtain ⟨p, _, hpe⟩ := hx
  split_ifs at hpe with ht
  cases Option.some.inj hpe
  conv_rhs => rw [← ht]

/-- Every candidate triple the sequential matcher feeds to the allocator is an
accepted scorer output on raw row views. -/
theorem seqLine_calc {cfg : MatcherConfig} {mrows : List RawRow} {i : Nat}
    {r : RawRow} {mqty : Nat → Int} {x : Nat × ℚ × MatchDetails}
    (hx : x ∈ seqLine cfg mrows i r mqty) :
    ∃ m : RawRow, calcConfidence cfg (rawView r) (rawView m) = (true, x.2.1, x.2.2) := by
  simp only [seqLine] at hx
  rw [mem_sortDescBy, List.mem_filterMap] at hx
  obtain ⟨p, _, hpe⟩ := hx
  split_ifs at hpe with ht
  cases Option.some.inj hpe
  rw [Bool.and_eq_true] at ht
  refine ⟨p.2, ?_⟩
  conv_rhs => rw [← ht.1]

/-- A successful blocked run exposes its quantity lists and loop result. -/
theorem runBlocked_ok {cfg : MatcherConfig} {receipt matched : Dataset}
    {res : List MatchResult}
    (h : runBlocked cfg receipt matched = .ok res) :
    ∃ rq mq, parseQty receipt = .ok rq ∧ parseQty matched = .ok mq ∧
      res = runLoop (blockedLine cfg matched.rows) (fun i => rq.getD i 1)
        receipt.rows.enum (fun j => mq.getD j 0) := by
  unfold runBlocked at h
  cases hpr : parseQty receipt with
  | error e =>
    rw [hpr] at h
    simp [Bind.bind, Except.bind] at h
  | ok rq =>
    cases hpm : parseQty matched with
    | error e =>
      rw [hpr, hpm] at h
      simp [Bind.bind, Except.bind] at h
    | ok mq =>
      rw [hpr, hpm] at h
      simp only [Bind.bind, Except.bind, pure, Except.pure] at h
      exact ⟨rq, mq, rfl, rfl, (Except.ok.inj h).symm⟩

/-- A successful sequential run exposes its quantity lists and loop result. -/
theorem runSeq_ok {cfg : MatcherConfig} {receipt matched : Dataset}
    {res : List MatchResult}
    (h : runSeq cfg receipt matched = .ok res) :
    ∃ rq mq, parseQty receipt = .ok rq ∧ parseQty matched = .ok mq ∧
      res = runLoop (seqLine cfg matched.rows) (fun i => rq.getD i 1)
        receipt.rows.enum (fun j => mq.getD j 0) := by
  unfold runSeq at h
  cases hpr : parseQty receipt with
  | error e =>
    rw [hpr] at h
    simp [Bind.bind, Except.bind] at h
  | ok rq =>
    cases hpm : parseQty matched with
    | error e =>
      rw [hpr, hpm] at h
      simp [Bind.bind, Except.bind] at h
    | ok mq =>
      rw [hpr, hpm] at h
      simp only [Bind.bind, Except.bind, pure, Except.pure] at h
      exact ⟨rq, mq, rfl, rfl, (Except.ok.inj h).symm⟩

/-- C10: under the default configuration (weights 0.25/0.35/0.25/0.15 and
name-score cutoff 70, with the external partial similarity ranging over
[0, 100]) every emitted `MatchResult` of either matcher has confidence in
[89.5, 100]; consequently the report's low-confidence bucket (< 70) is
always zero and the medium bucket [70, 90) can only hold scores in
[89.5, 90). -/
theorem C10_default_confidence_range (cfg : MatcherConfig)
    (receipt matched : Dataset) (res : List MatchResult)
    (hcut : cfg.nameScoreCutoff = 70)
    (hwb : cfg.weightBrand = mkRat 1 4) (hwn : cfg.weightName = mkRat 7 20)
    (hwc : cfg.weightColor = mkRat 1 4) (hws : cfg.weightSize = mkRat 3 20)
    (hsim : ∀ a b, 0 ≤ cfg.nameSim a b ∧ cfg.nameSim a b ≤ 100)
    (hrun : runBlocked cfg receipt matched = .ok res ∨
            runSeq cfg receipt matched = .ok res) :
    (∀ mr ∈ res, mkRat 179 2 ≤ mr.confidenceScore ∧ mr.confidenceScore ≤ 100) ∧
    lowCount res = 0 ∧
    midCount res = res.countP
      (fun mr => decide (mkRat 179 2 ≤ mr.confidenceScore ∧
        mr.confidenceScore < 90)) := by
  have h895 : mkRat 179 2 = 179 / 2 := by
    rw [Rat.mkRat_eq_div]
    norm_num
  have hwb' : cfg.weightBrand = 1 / 4 := by
    rw [hwb, Rat.mkRat_eq_div]
    norm_num
  have hwn' : cfg.weightName = 7 / 20 := by
    rw [hwn, Rat.mkRat_eq_div]
    norm_num
  have hwc' : cfg.weightColor = 1 / 4 := by
    rw [hwc, Rat.mkRat_eq_div]
    norm_num
  have hws' : cfg.weightSize = 3 / 20 := by
    rw [hws, Rat.mkRat_eq_div]
    norm_num
  have hconf : ∀ (rv mv : RowView) (conf : ℚ) (d : MatchDetails),
      calcConfidence cfg rv mv = (true, conf, d) →
      mkRat 179 2 ≤ conf ∧ conf ≤ 100 := by
    intro rv mv conf d h
    obtain ⟨ns, hns, hns01, hf⟩ := calc_true_conf h
    rw [hcut] at hns
    have hns100 : ns ≤ 100 := by
      rcases hns01 with h0 | hs
      · rw [h0]
        norm_num
      · rw [hs]
        exact (hsim _ _).2
    rw [h895, hf, hwb', hwn', hwc', hws']
    constructor
    · linarith
    · linarith
  have hmem : ∀ mr ∈ res,
      mkRat 179 2 ≤ mr.confidenceScore ∧ mr.confidenceScore ≤ 100 := by
    rcases hrun with h | h
    · obtain ⟨rq, mq, -, -, hres⟩ := runBlocked_ok h
      intro mr hmr
      rw [hres] at hmr
      obtain ⟨i, r, q, c, -, hc, he⟩ := runLoop_mem hmr
      subst he
      exact hconf _ _ _ _ (blockedLine_calc hc)
    · obtain ⟨rq, mq, -, -, hres⟩ := runSeq_ok h
      intro mr hmr
      rw [hres] at hmr
      obtain ⟨i, r, q, c, -, hc, he⟩ := runLoop_mem hmr
      subst he
      obtain ⟨m, hm⟩ := seqLine_calc hc
      exact hconf _ _ _ _ hm
  refine ⟨hmem, ?_, ?_⟩
  · rw [lowCount, List.countP_eq_zero]
    intro mr hmr
    have hb := (hmem mr hmr).1
    rw [h895] at hb
    simp only [decide_eq_true_eq]
    intro hlt
    linarith
  · rw [midCount]
    apply List.countP_congr
    intro mr hmr
    have hb := (hmem mr hmr).1
    rw [h895] at hb
    simp only [decide_eq_true_eq, h895]
    constructor
    · rintro ⟨-, hlt⟩
      exact ⟨hb, hlt⟩
    · rintro ⟨-, hlt⟩
      refine ⟨by linarith, hlt⟩

/-- C10 (witness): the blocked run on the concrete tie-break data satisfies
the interval bounds and the bucket consequences. -/
theorem C10_default_confidence_range_witness :
    (∀ mr ∈ [(⟨0, 1, 100, ⟨100, 100, 100, 100⟩⟩ : MatchResult),
             ⟨0, 0, 100, ⟨100, 100, 100, 100⟩⟩],
      mkRat 179 2 ≤ mr.confidenceScore ∧ mr.confidenceScore ≤ 100) ∧
    lowCount [⟨0, 1, 100, ⟨100, 100, 100, 100⟩⟩,
              ⟨0, 0, 100, ⟨100, 100, 100, 100⟩⟩] = 0 ∧
    midCount [⟨0, 1, 100, ⟨100, 100, 100, 100⟩⟩,
              ⟨0, 0, 100, ⟨100, 100, 100, 100⟩⟩] =
      ([(⟨0, 1, 100, ⟨100, 100, 100, 100⟩⟩ : MatchResult),
        ⟨0, 0, 100, ⟨100, 100, 100, 100⟩⟩]).countP
        (fun mr => decide (mkRat 179 2 ≤ mr.confidenceScore ∧
          mr.confidenceScore < 90)) :=
  C10_default_confidence_range cfg0 dsReceipt dsCatalog
    [⟨0, 1, 100, ⟨100, 100, 100, 100⟩⟩, ⟨0, 0, 100, ⟨100, 100, 100, 100⟩⟩]
    rfl rfl rfl rfl rfl
    (fun a b => ⟨show (0 : ℚ) ≤ 100 by decide, show (100 : ℚ) ≤ 100 by decide⟩)
    (Or.inl (by decide))

/-- Membership under stable descending insertion. -/
theorem mem_insertDescBy {key : α → ℚ} {x z : α} {l : List α} :
    z ∈ insertDescBy key x l ↔ z = x ∨ z ∈ l := by
  rw [(insertDescBy_perm key x l).mem_iff, List.mem_cons]

/-- Stable descending insertion into a lexicographically sorted list keeps it
sorted, provided the inserted element tie-relates to every list element of
equal key. -/
theorem insertDescBy_pairwise {key : α → ℚ} {Rt : α → α → Prop} {x : α}
    {m : List α}
    (hm : m.Pairwise (fun a b => key b < key a ∨ (key a = key b ∧ Rt a b)))
    (hx : ∀ y ∈ m, key x = key y → Rt x y) :
    (insertDescBy key x m).Pairwise
      (fun a b => key b < key a ∨ (key a = key b ∧ Rt a b)) := by
  induction m with
  | nil => simp [insertDescBy]
  | cons b t ih =>
    rw [List.pairwise_cons] at hm
    obtain ⟨hb, ht⟩ := hm
    simp only [insertDescBy]
    split_ifs with hle
    · rw [List.pairwise_cons]
      refine ⟨?_, List.pairwise_cons.mpr ⟨hb, ht⟩⟩
      intro z hz
      rw [List.mem_cons] at hz
      rcases hz with rfl | hz
      · rcases lt_or_eq_of_le hle with h | h
        · exact Or.inl h
        · exact Or.inr ⟨h.symm, hx z (List.mem_cons_self _ _) h.symm⟩
      · rcases hb z hz with hlt | ⟨heq, _⟩
        · exact Or.inl (lt_of_lt_of_le hlt hle)
        · rcases lt_or_eq_of_le hle with h | h
          · exact Or.inl (heq ▸ h)
          · exact Or.inr ⟨h.symm.trans heq,
              hx z (List.mem_cons_of_mem _ hz) (h.symm.trans heq)⟩
    · rw [List.pairwise_cons]
      constructor
      · intro z hz
        rw [mem_insertDescBy] at hz
        rcases hz with rfl | hz
        · exact Or.inl (not_le.mp hle)
        · exact hb z hz
      · exact ih ht (fun y hy he => hx y (List.mem_cons_of_mem _ hy) he)

/-- A stable descending sort of a list whose equal-key elements are already
`Rt`-ordered is sorted for the strict lexicographic order (key descending,
ties by `Rt`). -/
theorem sortDescBy_pairwise {key : α → ℚ} {Rt : α → α → Prop} :
    ∀ {l : List α}, l.Pairwise (fun a b => key a = key b → Rt a b) →
      (sortDescBy key l).Pairwise
        (fun a b => key b < key a ∨ (key a = key b ∧ Rt a b)) := by
  intro l
  induction l with
  | nil =>
    intro _
    simp [sortDescBy]
  | cons a t ih =>
    intro h
    rw [List.pairwise_cons] at h
    obtain ⟨ha, ht⟩ := h
    simp only [sortDescBy]
    apply insertDescBy_pairwise (ih ht)
    intro y hy he
    rw [mem_sortDescBy] at hy
    exact ha y hy he

/-- The indices of `List.enumFrom` are strictly increasing. -/
theorem enumFrom_pairwise_lt (l : List RawRow) :
    ∀ n, (List.enumFrom n l).Pairwise (fun a b => a.1 < b.1) := by
  induction l with
  | nil =>
    intro n
    simp
  | cons x t ih =>
    intro n
    simp only [List.enumFrom]
    rw [List.pairwise_cons]
    refine ⟨fun b hb => ?_, ih (n + 1)⟩
    have := (List.mem_enumFrom hb).1
    omega

/-- The indices of `List.enum` are strictly increasing. -/
theorem enum_pairwise_lt (l : List RawRow) :
    l.enum.Pairwise (fun a b => a.1 < b.1) := by
  rw [List.enum_eq_enumFrom]
  exact enumFrom_pairwise_lt l 0

/-- C5 (amended): within each order line, the SEQUENTIAL matcher's candidate
list is consumed in strictly descending-confidence order with equal
confidences broken by original catalog-line order (first seen wins); the
blocked matcher (see the counterexample) breaks equal-confidence ties by
tier-1 retrieval order instead, and each matcher — with a fixed set
iteration order — is a pure function of its inputs and configuration. -/
theorem C5_amended_seq_tiebreak_order (cfg : MatcherConfig)
    (mrows : List RawRow) (i : Nat) (r : RawRow) (mqty : Nat → Int) :
    (seqLine cfg mrows i r mqty).Pairwise
      (fun a b => b.2.1 < a.2.1 ∨ (a.2.1 = b.2.1 ∧ a.1 < b.1)) := by
  unfold seqLine
  apply sortDescBy_pairwise
  have henum := enum_pairwise_lt mrows
  have hcands : (mrows.enum.filterMap (fun p =>
      let t := calcConfidence cfg (rawView r) (rawView p.2)
      if t.1 && decide (0 < mqty p.1) then some (p.1, t.2.1, t.2.2)
      else none)).Pairwise (fun a b => a.1 < b.1) := by
    refine List.Pairwise.filterMap _ ?_ henum
    intro a b hab u hu v hv
    simp only [Option.mem_def] at hu hv
    split_ifs at hu hv with h1 h2
    cases Option.some.inj hu
    cases Option.some.inj hv
    exact hab
  exact hcands.imp (fun {a b} (h : a.1 < b.1) (_ : a.2.1 = b.2.1) => h)

/-- A candidate size value made of kept characters survives cleaning and is
canonicalized and inserted. -/
theorem addCleaned_allowed {syns : List (String × List String)}
    {acc : List String} {v : List Char} (hv : v ≠ [])
    (ha : ∀ c ∈ v, isAllowed c = true) :
    addCleaned syns acc v = addTok acc (sizeCanon syns ⟨v⟩) := by
  unfold addCleaned
  rw [List.filter_eq_self.mpr ha]
  rw [if_neg (by simpa [List.isEmpty_iff] using hv)]

/-- C7: size-token extraction satisfies the specification's examples —
`"7(M), 9(L)" ↦ {7, m, 9, l}`, `"7(M)" ↦ {7, m}`, `"M(9)" ↦ {m, 9}`,
`"L" ↦ {l}` and `"XL(100)" ↦ {xl, 100}` — whenever NFKC fixes these ASCII
inputs (it does) and the configured size-synonym table does not remap the
involved tokens. -/
theorem C7_size_extraction_examples (cfg : MatcherConfig)
    (hn1 : cfg.nfkc "7(M), 9(L)".data = "7(M), 9(L)".data)
    (hn2 : cfg.nfkc "7(M)".data = "7(M)".data)
    (hn3 : cfg.nfkc "M(9)".data = "M(9)".data)
    (hn4 : cfg.nfkc "L".data = "L".data)
    (hn5 : cfg.nfkc "XL(100)".data = "XL(100)".data)
    (h7 : sizeCanon cfg.sizeSynonyms "7" = "7")
    (hm : sizeCanon cfg.sizeSynonyms "m" = "m")
    (h9 : sizeCanon cfg.sizeSynonyms "9" = "9")
    (hl : sizeCanon cfg.sizeSynonyms "l" = "l")
    (hxl : sizeCanon cfg.sizeSynonyms "xl" = "xl")
    (h100 : sizeCanon cfg.sizeSynonyms "100" = "100") :
    setEq (extractSizeTokens cfg "7(M), 9(L)") ["7", "m", "9", "l"] = true ∧
    setEq (extractSizeTokens cfg "7(M)") ["7", "m"] = true ∧
    setEq (extractSizeTokens cfg "M(9)") ["m", "9"] = true ∧
    setEq (extractSizeTokens cfg "L") ["l"] = true ∧
    setEq (extractSizeTokens cfg "XL(100)") ["xl", "100"] = true := by
  refine ⟨?_, ?_, ?_, ?_, ?_⟩
  · unfold extractSizeTokens extractCore
    rw [hn1, show candVals "7(M), 9(L)".data = [['7'], ['m'], ['9'], ['l']] from by decide]
    simp only [List.foldl]
    rw [addCleaned_allowed (by decide) (by decide),
        addCleaned_allowed (by decide) (by decide),
        addCleaned_allowed (by decide) (by decide),
        addCleaned_allowed (by decide) (by decide)]
    rw [show (⟨['7']⟩ : String) = "7" from rfl, h7,
        show (⟨['m']⟩ : String) = "m" from rfl, hm,
        show (⟨['9']⟩ : String) = "9" from rfl, h9,
        show (⟨['l']⟩ : String) = "l" from rfl, hl]
    decide
  · unfold extractSizeTokens extractCore
    rw [hn2, show candVals "7(M)".data = [['7'], ['m']] from by decide]
    simp only [List.foldl]
    rw [addCleaned_allowed (by decide) (by decide),
        addCleaned_allowed (by decide) (by decide)]
    rw [show (⟨['7']⟩ : String) = "7" from rfl, h7,
        show (⟨['m']⟩ : String) = "m" from rfl, hm]
    decide
  · unfold extractSizeTokens extractCore
    rw [hn3, show candVals "M(9)".data = [['m'], ['9']] from by decide]
    simp only [List.foldl]
    rw [addCleaned_allowed (by decide) (by decide),
        addCleaned_allowed (by decide) (by decide)]
    rw [show (⟨['m']⟩ : String) = "m" from rfl, hm,
        show (⟨['9']⟩ : String) = "9" from rfl, h9]
    decide
  · unfold extractSizeTokens extractCore
    rw [hn4, show candVals "L".data = [['l']] from by decide]
    simp only [List.foldl]
    rw [addCleaned_allowed (by decide) (by decide)]
    rw [show (⟨['l']⟩ : String) = "l" from rfl, hl]
    decide
  · unfold extractSizeTokens extractCore
    rw [hn5, show candVals "XL(100)".data = [['x', 'l'], ['1', '0', '0']] from by decide]
    simp only [List.foldl]
    rw [addCleaned_allowed (by decide) (by decide),
        addCleaned_allowed (by decide) (by decide)]
    rw [show (⟨['x', 'l']⟩ : String) = "xl" from rfl, hxl,
        show (⟨['1', '0', '0']⟩ : String) = "100" from rfl, h100]
    decide

/-- C7 (witness): with identity NFKC and an empty size-synonym table the five
examples hold outright. -/
theorem C7_size_extraction_witness :
    setEq (extractSizeTokens cfg0 "7(M), 9(L)") ["7", "m", "9", "l"] = true ∧
    setEq (extractSizeTokens cfg0 "7(M)") ["7", "m"] = true ∧
    setEq (extractSizeTokens cfg0 "M(9)") ["m", "9"] = true ∧
    setEq (extractSizeTokens cfg0 "L") ["l"] = true ∧
    setEq (extractSizeTokens cfg0 "XL(100)") ["xl", "100"] = true :=
  C7_size_extraction_examples cfg0 rfl rfl rfl rfl rfl
    (by decide) (by decide) (by decide) (by decide) (by decide) (by decide)

/-- Kept characters of the run-collapser come from the input and do not
satisfy the replaced class; everything else is the replacement character. -/
theorem collapseAux_mem {p : Char → Bool} {r : Char} :
    ∀ {prev : Bool} {l : List Char} {c : Char}, c ∈ collapseAux p r prev l →
      (c ∈ l ∧ p c = false) ∨ c = r := by
  intro prev l
  induction l generalizing prev with
  | nil =>
    intro c h
    simp [collapseAux] at h
  | cons a t ih =>
    intro c h
    simp only [collapseAux] at h
    split_ifs at h with h1 h2
    · rcases ih h with ⟨hm, hp⟩ | hr
      · exact Or.inl ⟨List.mem_cons_of_mem _ hm, hp⟩
      · exact Or.inr hr
    · rw [List.mem_cons] at h
      rcases h with rfl | h
      · exact Or.inr rfl
      · rcases ih h with ⟨hm, hp⟩ | hr
        · exact Or.inl ⟨List.mem_cons_of_mem _ hm, hp⟩
        · exact Or.inr hr
    · rw [List.mem_cons] at h
      rcases h with rfl | h
      · exact Or.inl ⟨List.mem_cons_self _ _, Bool.not_eq_true _ ▸ h1⟩
      · rcases ih h with ⟨hm, hp⟩ | hr
        · exact Or.inl ⟨List.mem_cons_of_mem _ hm, hp⟩
        · exact Or.inr hr

/-- The run-collapser's output never has two adjacent characters of the
replaced class, and after a run its head is a kept character. -/
theorem collapseAux_chain {p : Char → Bool} {r : Char} :
    ∀ (l : List Char),
      (∀ prev, (collapseAux p r prev l).Chain'
        (fun a b => ¬(p a = true ∧ p b = true))) ∧
      (∀ c, (collapseAux p r true l).head? = some c → p c = false) := by
  intro l
  induction l with
  | nil =>
    refine ⟨fun prev => by simp [collapseAux], fun c h => by simp [collapseAux] at h⟩
  | cons a t ih =>
    constructor
    · intro prev
      simp only [collapseAux]
      split_ifs with h1 h2
      · exact ih.1 true
      · rw [List.chain'_cons']
        refine ⟨?_, ih.1 true⟩
        intro b hb hcontra
        have hbf := ih.2 b hb
        rw [hbf] at hcontra
        exact Bool.false_ne_true hcontra.2
      · rw [List.chain'_cons']
        refine ⟨?_, ih.1 false⟩
        intro b hb hcontra
        exact h1 hcontra.1
    · intro c hc
      simp only [collapseAux] at hc
      split_ifs at hc with h1
      · exact ih.2 c hc
      · rw [List.head?_cons] at hc
        cases Option.some.inj hc
        exact Bool.not_eq_true _ ▸ h1

/-- The run-collapser is the identity on a list whose replaced-class
characters all equal the replacement and are never adjacent. -/
theorem collapseAux_id {p : Char → Bool} {r : Char} :
    ∀ (l : List Char), (∀ c ∈ l, p c = true → c = r) →
      l.Chain' (fun a b => ¬(a = r ∧ b = r)) →
      (collapseAux p r false l = l ∧
       ((∀ c, l.head? = some c → p c = false) → collapseAux p r true l = l)) := by
  intro l
  induction l with
  | nil => exact fun _ _ => ⟨rfl, fun _ => rfl⟩
  | cons a t ih =>
    intro hval hch
    rw [List.chain'_cons'] at hch
    obtain ⟨hhd, hch'⟩ := hch
    obtain ⟨ihf, iht⟩ :=
      ih (fun c hc hp => hval c (List.mem_cons_of_mem _ hc) hp) hch'
    by_cases hpa : p a = true
    · have har : a = r := hval a (List.mem_cons_self _ _) hpa
      have htail : ∀ c, t.head? = some c → p c = false := by
        intro c hc
        by_contra hpc
        have hcr : c = r :=
          hval c (List.mem_cons_of_mem _ (List.mem_of_mem_head? hc))
            (Bool.not_eq_false _ ▸ hpc)
        exact hhd c hc ⟨har, hcr⟩
      constructor
      · show collapseAux p r false (a :: t) = a :: t
        simp only [collapseAux, if_pos hpa]
        rw [iht htail, har]
        simp
      · intro h
        exact absurd (h a rfl) (by simp [hpa])
    · have hpa' : p a = false := Bool.not_eq_true _ ▸ hpa
      constructor
      · show collapseAux p r false (a :: t) = a :: t
        simp only [collapseAux, hpa', Bool.false_eq_true, if_false]
        rw [ihf]
      · intro _
        show collapseAux p r true (a :: t) = a :: t
        simp only [collapseAux, hpa', Bool.false_eq_true, if_false]
        rw [ihf]

/-- The head of `dropWhile p` never satisfies `p`. -/
theorem head_dropWhile {p : Char → Bool} :
    ∀ (l : List Char) (c : Char), (l.dropWhile p).head? = some c → p c = false := by
  intro l
  induction l with
  | nil =>
    intro c h
    simp at h
  | cons a t ih =>
    intro c h
    by_cases hpa : p a = true
    · rw [List.dropWhile_cons, if_pos hpa] at h
      exact ih c h
    · rw [List.dropWhile_cons, if_neg hpa, List.head?_cons] at h
      cases Option.some.inj h
      exact Bool.not_eq_true _ ▸ hpa

/-- `dropWhile` fixes a list whose head does not satisfy the predicate. -/
theorem dropWhile_eq_self_of_head {p : Char → Bool} (l : List Char)
    (h : ∀ c, l.head? = some c → p c = false) : l.dropWhile p = l := by
  cases l with
  | nil => rfl
  | cons a t =>
    have := h a rfl
    rw [List.dropWhile_cons, if_neg (by simp [this])]

/-- `dropWhile` preserves adjacency constraints. -/
theorem chain'_dropWhile {R : Char → Char → Prop} {p : Char → Bool} :
    ∀ {l : List Char}, l.Chain' R → (l.dropWhile p).Chain' R := by
  intro l
  induction l with
  | nil => intro h; simp
  | cons a t ih =>
    intro h
    rw [List.dropWhile_cons]
    split_ifs with hpa
    · exact ih (List.chain'_cons'.mp h).2
    · exact h

/-- Characters of the stripped list come from the original. -/
theorem stripL_mem {l : List Char} {c : Char} (h : c ∈ stripL l) : c ∈ l := by
  unfold stripL at h
  rw [List.mem_reverse] at h
  have h1 := (List.dropWhile_sublist _ (l := ((l.dropWhile pyIsSpace).reverse))).subset h
  rw [List.mem_reverse] at h1
  exact (List.dropWhile_sublist _ (l := l)).subset h1

/-- Stripping preserves a symmetric adjacency constraint. -/
theorem stripL_chain {R : Char → Char → Prop} (hsymm : ∀ a b, R a b → R b a)
    {l : List Char} (h : l.Chain' R) : (stripL l).Chain' R := by
  unfold stripL
  have h1 : (l.dropWhile pyIsSpace).Chain' R := chain'_dropWhile h
  have h2 : ((l.dropWhile pyIsSpace).reverse).Chain' R := by
    rw [List.chain'_reverse]
    exact h1.imp (fun {a b} hab => hsymm a b hab)
  have h3 := chain'_dropWhile (p := pyIsSpace) h2
  rw [List.chain'_reverse]
  exact h3.imp (fun {a b} hab => hsymm a b hab)

/-- The stripped list starts with a non-whitespace character. -/
theorem stripL_head (l : List Char) :
    ∀ c, (stripL l).head? = some c → pyIsSpace c = false := by
  intro c hc
  unfold stripL at hc
  rw [List.head?_reverse] at hc
  set W := (l.dropWhile pyIsSpace).reverse with hW
  rcases hz : W.dropWhile pyIsSpace with _ | ⟨z, zs⟩
  · rw [hz] at hc
    simp at hc
  · rw [hz] at hc
    have hlast : (W.dropWhile pyIsSpace).getLast? = W.getLast? := by
      obtain ⟨t, ht⟩ := List.dropWhile_suffix (l := W) (p := pyIsSpace)
      calc (W.dropWhile pyIsSpace).getLast?
          = (t ++ W.dropWhile pyIsSpace).getLast? :=
            (List.getLast?_append_of_ne_nil t (by rw [hz]; simp)).symm
        _ = W.getLast? := by rw [ht]
    rw [hz] at hlast
    rw [hlast] at hc
    rw [hW, List.getLast?_reverse] at hc
    exact head_dropWhile l c hc

/-- The stripped list ends with a non-whitespace character. -/
theorem stripL_last (l : List Char) :
    ∀ c, (stripL l).getLast? = some c → pyIsSpace c = false := by
  intro c hc
  unfold stripL at hc
  rw [List.getLast?_reverse] at hc
  exact head_dropWhile _ c hc

/-- Stripping fixes a list with non-whitespace endpoints. -/
theorem stripL_eq_self (l : List Char)
    (hh : ∀ c, l.head? = some c → pyIsSpace c = false)
    (hl : ∀ c, l.getLast? = some c → pyIsSpace c = false) : stripL l = l := by
  unfold stripL
  rw [dropWhile_eq_self_of_head l hh]
  rw [dropWhile_eq_self_of_head l.reverse
    (fun c hc => hl c (by rwa [List.head?_reverse] at hc))]
  exact List.reverse_reverse l

/-- Kept characters are not whitespace. -/
theorem allowed_not_space {c : Char} (h : isAllowed c = true) :
    pyIsSpace c = false := by
  simp only [isAllowed, isHangul, Bool.or_eq_true, Bool.and_eq_true,
    decide_eq_true_eq] at h
  simp only [pyIsSpace, Bool.or_eq_false_iff, decide_eq_false_iff_not]
  omega

/-- Lower-casing fixes kept characters and the space. -/
theorem lower_fixes_normalized {c : Char} (h : isAllowed c = true ∨ c = ' ') :
    lowerChar c = c := by
  rcases h with h | rfl
  · unfold lowerChar
    rw [if_neg]
    simp only [Bool.and_eq_true, decide_eq_true_eq, not_and]
    simp only [isAllowed, isHangul, Bool.or_eq_true, Bool.and_eq_true,
      decide_eq_true_eq] at h
    omega
  · decide

/-- Lower-casing fixes every normalized string. -/
theorem map_lower_fixes {l : List Char}
    (h : ∀ c ∈ l, isAllowed c = true ∨ c = ' ') : l.map lowerChar = l := by
  induction l with
  | nil => rfl
  | cons a t ih =>
    rw [List.map_cons, lower_fixes_normalized (h a (List.mem_cons_self _ _)),
      ih (fun c hc => h c (List.mem_cons_of_mem _ hc))]

/-- Every character of a normalized string is kept or a single space. -/
theorem normTextL_chars (nfkc : List Char → List Char) (l : List Char) :
    ∀ c ∈ normTextL nfkc l, isAllowed c = true ∨ c = ' ' := by
  intro c hc
  unfold normTextL at hc
  have hc1 := stripL_mem hc
  rcases collapseAux_mem hc1 with ⟨hm5, _⟩ | hr
  · rcases collapseAux_mem hm5 with ⟨_, hp5⟩ | hr
    · left
      simpa using hp5
    · right
      exact hr
  · right
    exact hr

/-- A normalized string never contains two adjacent spaces. -/
theorem normTextL_chain (nfkc : List Char → List Char) (l : List Char) :
    (normTextL nfkc l).Chain' (fun a b => ¬(a = ' ' ∧ b = ' ')) := by
  unfold normTextL collapseRuns
  apply stripL_chain (fun a b h hab => h ⟨hab.2, hab.1⟩)
  exact ((collapseAux_chain _).1 false).imp (fun {a b} h hab =>
    h ⟨by rw [hab.1]; decide, by rw [hab.2]; decide⟩)

/-- A normalized string does not start with whitespace. -/
theorem normTextL_head (nfkc : List Char → List Char) (l : List Char) :
    ∀ c, (normTextL nfkc l).head? = some c → pyIsSpace c = false := by
  unfold normTextL
  exact stripL_head _

/-- A normalized string does not end with whitespace. -/
theorem normTextL_last (nfkc : List Char → List Char) (l : List Char) :
    ∀ c, (normTextL nfkc l).getLast? = some c → pyIsSpace c = false := by
  unfold normTextL
  exact stripL_last _

/-- The normalizer fixes any list that is already in normal form, as long as
NFKC fixes strings over the normalized alphabet (digits, lowercase ASCII,
Hangul syllables and the space are all NFKC-stable). -/
theorem normTextL_fixes (nfkc : List Char → List Char)
    (hnf : ∀ l, (∀ c ∈ l, isAllowed c = true ∨ c = ' ') → nfkc l = l)
    (l : List Char)
    (hak : ∀ c ∈ l, isAllowed c = true ∨ c = ' ')
    (hch : l.Chain' (fun a b => ¬(a = ' ' ∧ b = ' ')))
    (hh : ∀ c, l.head? = some c → pyIsSpace c = false)
    (hl : ∀ c, l.getLast? = some c → pyIsSpace c = false) :
    normTextL nfkc l = l := by
  have hval4 : ∀ c ∈ l, pyIsSpace c = true → c = ' ' := by
    intro c hc hsp
    rcases hak c hc with h | h
    · rw [allowed_not_space h] at hsp
      cases hsp
    · exact h
  have hval5 : ∀ c ∈ l, (!isAllowed c) = true → c = ' ' := by
    intro c hc hna
    rcases hak c hc with h | h
    · rw [h] at hna
      cases hna
    · exact h
  have h4 := (collapseAux_id (p := pyIsSpace) (r := ' ') l hval4 hch).1
  have h5 := (collapseAux_id (p := fun c => !isAllowed c) (r := ' ') l hval5 hch).1
  unfold normTextL collapseRuns
  simp only []
  rw [stripL_eq_self l hh hl, hnf l hak, map_lower_fixes hak, h4, h5, h4,
    stripL_eq_self l hh hl]

/-- C8: text normalization is idempotent —
`normalize_text(normalize_text(s)) = normalize_text(s)` for every string,
given that the external NFKC normalization fixes strings over the
normalized alphabet (a property of Unicode NFKC). -/
theorem C8_normalize_text_idempotent (nfkc : List Char → List Char)
    (hnf : ∀ l, (∀ c ∈ l, isAllowed c = true ∨ c = ' ') → nfkc l = l)
    (s : String) :
    normText nfkc (normText nfkc s) = normText nfkc s := by
  show (⟨normTextL nfkc (normTextL nfkc s.data)⟩ : String) = ⟨normTextL nfkc s.data⟩
  congr 1
  exact normTextL_fixes nfkc hnf _ (normTextL_chars nfkc s.data)
    (normTextL_chain nfkc s.data) (normTextL_head nfkc s.data)
    (normTextL_last nfkc s.data)

/-- C8 (witness): idempotence at the identity NFKC on a concrete raw string
with mixed case, symbols and runs of whitespace. -/
theorem C8_normalize_text_idempotent_witness :
    normText id (normText id "  HeLLo,,  WORLD!! 볼MTM  123  ") =
      normText id "  HeLLo,,  WORLD!! 볼MTM  123  " :=
  C8_normalize_text_idempotent id (fun _ _ => rfl)
    "  HeLLo,,  WORLD!! 볼MTM  123  "

/-- With no synonym groups configured, name canonicalization is the
identity. -/
theorem applySynonyms_nil (s : String) : applySynonyms [] s = s := by
  unfold applySynonyms
  split_ifs with h
  · rfl
  · rfl

/-- On a precomputed row the effective brand is the normalized brand column
(the empty-string fallback recomputes the same value). -/
theorem effBrand_pre (cfg : MatcherConfig) (a : RawRow) :
    effBrand cfg (precomputeRow cfg a) = pBrand cfg a := by
  unfold effBrand precomputeRow pBrand
  dsimp only
  split_ifs with h
  · rfl
  · rfl

/-- On a raw row view the effective brand is the normalized brand. -/
theorem effBrand_raw (cfg : MatcherConfig) (a : RawRow) :
    effBrand cfg (rawView a) = pBrand cfg a := rfl

/-- On a precomputed row the effective color is the normalized color column. -/
theorem effColor_pre (cfg : MatcherConfig) (a : RawRow) :
    effColor cfg (precomputeRow cfg a) = pColor cfg a := by
  unfold effColor precomputeRow pColor
  dsimp only
  split_ifs with h
  · rfl
  · rfl

/-- On a raw row view the effective color is the normalized color. -/
theorem effColor_raw (cfg : MatcherConfig) (a : RawRow) :
    effColor cfg (rawView a) = pColor cfg a := rfl

/-- On a precomputed row the effective size set is the extracted token set. -/
theorem effSizes_pre (cfg : MatcherConfig) (a : RawRow) :
    effSizes cfg (precomputeRow cfg a) = pSizes cfg a := rfl

/-- On a raw row view the effective size set is the extracted token set. -/
theorem effSizes_raw (cfg : MatcherConfig) (a : RawRow) :
    effSizes cfg (rawView a) = pSizes cfg a := rfl

/-- On a raw row view the effective name is the normalized (but never
synonym-canonicalized) product name. -/
theorem effName_raw (cfg : MatcherConfig) (a : RawRow) :
    effName cfg (rawView a) = normText cfg.nfkc a.name := rfl

/-- With no synonym groups, the effective name of a precomputed row is just
the normalized product name. -/
theorem effName_pre_nil {cfg : MatcherConfig} (hsyn : cfg.nameSynonymGroups = [])
    (a : RawRow) :
    effName cfg (precomputeRow cfg a) = normText cfg.nfkc a.name := by
  unfold effName precomputeRow pName
  dsimp only
  rw [hsyn, applySynonyms_nil]
  split_ifs with h
  · rfl
  · rfl

/-- With no synonym groups, the scorer cannot distinguish precomputed and raw
row views. -/
theorem calc_pre_raw {cfg : MatcherConfig} (hsyn : cfg.nameSynonymGroups = [])
    (a b : RawRow) :
    calcConfidence cfg (precomputeRow cfg a) (precomputeRow cfg b) =
      calcConfidence cfg (rawView a) (rawView b) := by
  simp only [calcConfidence, effBrand_pre, effBrand_raw, effColor_pre,
    effColor_raw, effSizes_pre, effSizes_raw, effName_pre_nil hsyn,
    effName_raw]

/-- An order line with no size tokens is rejected against every catalog
line. -/
theorem calc_sizes_empty {cfg : MatcherConfig} {v : RowView}
    (h : effSizes cfg v = []) (w : RowView) :
    calcConfidence cfg v w = (false, 0, noDetails) := by
  unfold calcConfidence
  rw [h]
  simp

/-- An accepted pair passed all four gates: equal effective brand and color,
a shared size token, and a name score at or above the cutoff; its
confidence is the weighted sum over that name score. -/
theorem calc_true_gates {cfg : MatcherConfig} {v w : RowView} {conf : ℚ}
    {d : MatchDetails} (h : calcConfidence cfg v w = (true, conf, d)) :
    effBrand cfg v = effBrand cfg w ∧ effColor cfg v = effColor cfg w ∧
    (∃ s ∈ effSizes cfg v, s ∈ effSizes cfg w) ∧
    cfg.nameScoreCutoff ≤ fastFuzzyMatch cfg (effName cfg v) (effName cfg w) ∧
    conf = 100 * cfg.weightBrand +
      fastFuzzyMatch cfg (effName cfg v) (effName cfg w) * cfg.weightName +
      100 * cfg.weightColor + 100 * cfg.weightSize := by
  simp only [calcConfidence] at h
  split_ifs at h with h1 h2 h3 h4
  · simp at h
  · simp at h
  · simp at h
  · simp at h
  · have h1' : (¬effSizes cfg v = [] ∧ ¬effSizes cfg w = []) ∧
        ∃ x ∈ effSizes cfg v, x ∈ effSizes cfg w := by
      simpa [List.isEmpty_iff, not_or] using h1
    have hinj := (Prod.mk.injEq _ _ _ _).mp h
    have hinj2 := (Prod.mk.injEq _ _ _ _).mp hinj.2
    exact ⟨not_not.mp h2, not_not.mp h3, h1'.2, not_lt.mp h4, hinj2.1.symm⟩

/-- Two lists sorted by an asymmetric relation that are permutations of each
other are equal. -/
theorem sorted_perm_eq {R : α → α → Prop}
    (hasym : ∀ a b, R a b → R b a → False) :
    ∀ {l1 l2 : List α}, List.Perm l1 l2 → l1.Pairwise R → l2.Pairwise R →
      l1 = l2 := by
  intro l1
  induction l1 with
  | nil =>
    intro l2 hp _ _
    exact hp.nil_eq
  | cons a t1 ih =>
    intro l2 hp h1 h2
    cases l2 with
    | nil => exact absurd hp.symm.nil_eq (by simp)
    | cons b t2 =>
      rw [List.pairwise_cons] at h1 h2
      have hab : a = b := by
        by_contra hne
        have ha2 : a ∈ b :: t2 := hp.subset (List.mem_cons_self _ _)
        have hb1 : b ∈ a :: t1 := hp.symm.subset (List.mem_cons_self _ _)
        rw [List.mem_cons] at ha2 hb1
        rcases ha2 with h | ha2
        · exact hne h
        rcases hb1 with h | hb1
        · exact hne h.symm
        exact hasym a b (h1.1 b hb1) (h2.1 a ha2)
      subst hab
      rw [ih hp.cons_inv h1.2 h2.2]

/-- The matching loop only depends on the per-line candidate computation at
the processed lines. -/
theorem runLoop_congr_on
    {line1 line2 : Nat → RawRow → (Nat → Int) → List (Nat × ℚ × MatchDetails)}
    {rqty : Nat → Int} :
    ∀ {rows : List (Nat × RawRow)} {mqty : Nat → Int},
      (∀ p ∈ rows, ∀ q, line1 p.1 p.2 q = line2 p.1 p.2 q) →
      runLoop line1 rqty rows mqty = runLoop line2 rqty rows mqty := by
  intro rows
  induction rows with
  | nil =>
    intro mqty _
    rfl
  | cons p rest ih =>
    intro mqty h
    obtain ⟨i0, r0⟩ := p
    simp only [runLoop]
    split_ifs with h1
    · exact ih (fun p hp => h p (List.mem_cons_of_mem _ hp))
    · rw [h (i0, r0) (List.mem_cons_self _ _) mqty,
        ih (fun p hp => h p (List.mem_cons_of_mem _ hp))]

/-- Fused filter/map/filter/map/filter/filterMap composition used to rewrite
the blocked matcher's candidate pipeline as a single `filterMap` over the
enumerated catalog. -/
theorem fused_pipeline {β : Type} (P : Nat × RawRow → Bool) (q : Nat → Bool)
    (h : Nat → Nat × ℚ) (pc : Nat × ℚ → Bool) (g : Nat × ℚ → Option β) :
    ∀ mm : List (Nat × RawRow),
      (((((mm.filter P).map Prod.fst).filter q).map h).filter pc).filterMap g =
        mm.filterMap (fun x =>
          if P x = true then
            if q x.1 = true then
              if pc (h x.1) = true then g (h x.1) else none
            else none
          else none) := by
  intro mm
  induction mm with
  | nil => rfl
  | cons x t ih =>
    by_cases hP : P x = true
    · by_cases hq : q x.1 = true
      · by_cases hpc : pc (h x.1) = true
        · cases hg : g (h x.1) with
          | none =>
            simp [List.filter_cons, hP, hq, hpc, List.filterMap_cons, hg, ih]
          | some b =>
            simp [List.filter_cons, hP, hq, hpc, List.filterMap_cons, hg, ih]
        · simp [List.filter_cons, hP, hq, hpc, List.filterMap_cons, ih]
      · simp [List.filter_cons, hP, hq, List.filterMap_cons, ih]
    · simp [List.filter_cons, hP, List.filterMap_cons, ih]

/-- Enumerated rows are fetched back by `rowAt`. -/
theorem rowAt_of_mem_enum {mrows : List RawRow} {p : Nat × RawRow}
    (h : p ∈ mrows.enum) : rowAt mrows p.1 = p.2 := by
  have := List.mem_enum_iff_getElem?.mp h
  unfold rowAt
  rw [List.getD_eq_getElem?_getD, this]
  rfl

/-- With no synonym groups, the precomputed name column is the normalized
name. -/
theorem pName_nil {cfg : MatcherConfig} (hsyn : cfg.nameSynonymGroups = [])
    (a : RawRow) : pName cfg a = normText cfg.nfkc a.name := by
  unfold pName
  rw [hsyn, applySynonyms_nil]

/-- A fuzzy name score that meets a positive cutoff is a genuine similarity
value (the empty-string branch returns 0). -/
theorem fastFuzzy_pos_eq_sim {cfg : MatcherConfig} {a b : String}
    (hle : cfg.nameScoreCutoff ≤ fastFuzzyMatch cfg a b)
    (hc0 : 0 < cfg.nameScoreCutoff) :
    fastFuzzyMatch cfg a b = cfg.nameSim a b := by
  unfold fastFuzzyMatch at hle ⊢
  split_ifs at hle ⊢ with h
  · linarith
  · rfl

/-- Tier-1 membership characterization. -/
theorem mem_lookupBCS {mm : List (Nat × RawRow)} {cfg : MatcherConfig}
    {b c s : String} {j : Nat} :
    j ∈ lookupBCS mm cfg b c s ↔
      ∃ m, (j, m) ∈ mm ∧ pBrand cfg m = b ∧ pColor cfg m = c ∧
        s ∈ pSizes cfg m := by
  unfold lookupBCS
  rw [List.mem_map]
  constructor
  · rintro ⟨⟨j', m⟩, hp, he⟩
    rw [List.mem_filter] at hp
    simp only [Bool.and_eq_true, decide_eq_true_eq] at hp
    cases he
    exact ⟨m, hp.1, hp.2.1.1, hp.2.1.2, hp.2.2⟩
  · rintro ⟨m, hm, h1, h2, h3⟩
    refine ⟨(j, m), ?_, rfl⟩
    rw [List.mem_filter]
    simp only [Bool.and_eq_true, decide_eq_true_eq]
    exact ⟨hm, ⟨h1, h2⟩, h3⟩

/-- Any tier candidate is an index of the enumerated catalog. -/
theorem tierCandidates_mem {mm : List (Nat × RawRow)} {cfg : MatcherConfig}
    {b c : String} {sz : List String} {j : Nat}
    (h : j ∈ tierCandidates mm cfg b c sz) : ∃ m, (j, m) ∈ mm := by
  have hmap : ∀ (P : Nat × RawRow → Bool),
      j ∈ (mm.filter P).map Prod.fst → ∃ m, (j, m) ∈ mm := by
    intro P hj
    rw [List.mem_map] at hj
    obtain ⟨⟨j', m⟩, hp, he⟩ := hj
    cases he
    exact ⟨m, (List.mem_filter.mp hp).1⟩
  unfold tierCandidates at h
  simp only [] at h
  split_ifs at h with h1 h2
  · unfold rawTierOne at h
    split_ifs at h with h3
    · simp at h
    · rw [List.mem_flatten] at h
      obtain ⟨l, hl, hjl⟩ := h
      rw [List.mem_map] at hl
      obtain ⟨s, _, rfl⟩ := hl
      exact hmap _ hjl
  · exact hmap _ h
  · exact hmap _ h

/-- The candidate index lists produced by filtering the enumerated catalog are
strictly increasing. -/
theorem filter_map_fst_pairwise (mrows : List RawRow)
    (P : Nat × RawRow → Bool) :
    (((mrows.enum).filter P).map Prod.fst).Pairwise (fun a b => a < b) := by
  have h1 := (enum_pairwise_lt mrows).filter P
  exact List.Pairwise.map Prod.fst (fun a b hab => hab) h1

/-- All tier candidate lists of a (≤ 1)-token order line are strictly
increasing. -/
theorem tierCandidates_pairwise (mrows : List RawRow) (cfg : MatcherConfig)
    (b c : String) (sz : List String) (hsz : sz.length ≤ 1) :
    (tierCandidates mrows.enum cfg b c sz).Pairwise (fun a b => a < b) := by
  unfold tierCandidates
  simp only []
  split_ifs with h1 h2
  · unfold rawTierOne at h1 ⊢
    cases sz with
    | nil => simp at h1
    | cons s0 rest =>
      cases rest with
      | nil =>
        simp only [List.isEmpty_cons, Bool.false_eq_true, if_false,
          List.map_cons, List.map_nil, List.flatten_cons, List.flatten_nil,
          List.append_nil]
        exact filter_map_fst_pairwise mrows _
      | cons s1 rest2 => simp at hsz
  · exact filter_map_fst_pairwise mrows _
  · exact filter_map_fst_pairwise mrows _

/-- The sequential matcher's pre-sort candidate list is in strictly
increasing catalog order. -/
theorem seq_cands_pairwise (cfg : MatcherConfig) (mrows : List RawRow)
    (r : RawRow) (mqty : Nat → Int) :
    (mrows.enum.filterMap (fun p =>
      let t := calcConfidence cfg (rawView r) (rawView p.2)
      if t.1 && decide (0 < mqty p.1) then some (p.1, t.2.1, t.2.2)
      else none)).Pairwise (fun a b => a.1 < b.1) := by
  refine List.Pairwise.filterMap _ ?_ (enum_pairwise_lt mrows)
  intro a b hab u hu v hv
  simp only [Option.mem_def] at hu hv
  split_ifs at hu hv with h1 h2
  cases Option.some.inj hu
  cases Option.some.inj hv
  exact hab

/-- Stable descending sorts of two equal-key-ordered permutations coincide. -/
theorem sortDescBy_eq_of_perm {key : α → ℚ} {Rt : α → α → Prop}
    (hasym : ∀ a b, Rt a b → Rt b a → False) {l1 l2 : List α}
    (hperm : List.Perm l1 l2)
    (h1 : l1.Pairwise (fun a b => key a = key b → Rt a b))
    (h2 : l2.Pairwise (fun a b => key a = key b → Rt a b)) :
    sortDescBy key l1 = sortDescBy key l2 := by
  apply sorted_perm_eq
    (R := fun a b => key b < key a ∨ (key a = key b ∧ Rt a b))
  · intro a b hab hba
    rcases hab with hab | ⟨he1, hr1⟩
    · rcases hba with hba | ⟨he2, _⟩
      · exact absurd hba (not_lt.mpr (le_of_lt hab))
      · exact absurd hab (by rw [he2]; exact lt_irrefl _)
    · rcases hba with hba | ⟨-, hr2⟩
      · exact absurd hba (by rw [he1]; exact lt_irrefl _)
      · exact hasym _ _ hr1 hr2
  · exact ((sortDescBy_perm key l1).trans hperm).trans
      (sortDescBy_perm key l2).symm
  · exact sortDescBy_pairwise h1
  · exact sortDescBy_pairwise h2

/-- Rewriting the blocked matcher's per-line pipeline (tier retrieval,
quantity filter, `process.extract` pre-scoring, confidence evaluation) as
the sequential matcher's single pass over the enumerated catalog: with no
name synonyms, a positive cutoff and at most one size token on the order
line, the two produce the same pre-sort candidate list. -/
theorem blocked_filterMap_eq (cfg : MatcherConfig) (mrows : List RawRow)
    (r : RawRow) (mqty : Nat → Int)
    (hsyn : cfg.nameSynonymGroups = []) (hc0 : 0 < cfg.nameScoreCutoff)
    (hr1 : (pSizes cfg r).length ≤ 1) :
    (((codeCandidates mrows.enum cfg (pBrand cfg r) (pColor cfg r)
          (pSizes cfg r) mqty).map
        (fun j => (j, cfg.nameSim (pName cfg r) (pName cfg (rowAt mrows j))))).filter
        (fun p => decide (cfg.nameScoreCutoff ≤ p.2))).filterMap
      (fun p =>
        if (calcConfidence cfg (precomputeRow cfg r)
              (precomputeRow cfg (rowAt mrows p.1))).1 = true then
          some (p.1,
            (calcConfidence cfg (precomputeRow cfg r)
              (precomputeRow cfg (rowAt mrows p.1))).2.1,
            (calcConfidence cfg (precomputeRow cfg r)
              (precomputeRow cfg (rowAt mrows p.1))).2.2)
        else none) =
    mrows.enum.filterMap (fun p =>
      if ((calcConfidence cfg (rawView r) (rawView p.2)).1 &&
          decide (0 < mqty p.1)) = true then
        some (p.1, (calcConfidence cfg (rawView r) (rawView p.2)).2.1,
          (calcConfidence cfg (rawView r) (rawView p.2)).2.2)
      else none) := by
  rcases hsz : pSizes cfg r with _ | ⟨s0, rest⟩
  · -- no size tokens: gate 1 rejects everything on both sides
    have hrs : effSizes cfg (rawView r) = [] := by rw [effSizes_raw, hsz]
    rw [List.filterMap_eq_nil.mpr, List.filterMap_eq_nil.mpr]
    · intro p _
      rw [calc_sizes_empty hrs]
      simp
    · intro p _
      rw [calc_pre_raw hsyn, calc_sizes_empty hrs]
      simp
  · -- exactly one size token
    have hrest : rest = [] := by
      rw [hsz] at hr1
      simp only [List.length_cons] at hr1
      cases rest with
      | nil => rfl
      | cons a t => simp at hr1
    subst hrest
    have hrs1 : effSizes cfg (rawView r) = [s0] := by rw [effSizes_raw, hsz]
    have hone : rawTierOne mrows.enum cfg (pBrand cfg r) (pColor cfg r) [s0] =
        lookupBCS mrows.enum cfg (pBrand cfg r) (pColor cfg r) s0 := by
      unfold rawTierOne
      simp
    by_cases ht1 : lookupBCS mrows.enum cfg (pBrand cfg r) (pColor cfg r) s0 = []
    · -- tier-1 empty: no catalog line shares brand, color and the token, so
      -- nothing is accepted on either side
      have hnot : ∀ j m, (j, m) ∈ mrows.enum →
          (calcConfidence cfg (rawView r) (rawView m)).1 = true → False := by
        intro j m hm htt
        obtain ⟨hgb, hgc, hgs, -, -⟩ := calc_true_gates
          (show calcConfidence cfg (rawView r) (rawView m) =
            (true, (calcConfidence cfg (rawView r) (rawView m)).2.1,
             (calcConfidence cfg (rawView r) (rawView m)).2.2) from by
            rw [← htt])
        rw [effBrand_raw, effBrand_raw] at hgb
        rw [effColor_raw, effColor_raw] at hgc
        rw [hrs1, effSizes_raw] at hgs
        obtain ⟨s, hs, hsm⟩ := hgs
        rw [List.mem_singleton] at hs
        rw [hs] at hsm
        have hjmem : j ∈ lookupBCS mrows.enum cfg (pBrand cfg r)
            (pColor cfg r) s0 :=
          mem_lookupBCS.mpr ⟨m, hm, hgb.symm, hgc.symm, hsm⟩
        rw [ht1] at hjmem
        cases hjmem
      rw [List.filterMap_eq_nil.mpr, List.filterMap_eq_nil.mpr]
      · intro p hp
        obtain ⟨j, m⟩ := p
        rw [if_neg]
        simp only [Bool.and_eq_true]
        exact fun hc => hnot j m hp hc.1
      · intro p hp
        have hpc : p.1 ∈ codeCandidates mrows.enum cfg (pBrand cfg r)
            (pColor cfg r) [s0] mqty := by
          have hmem0 := (List.mem_filter.mp hp).1
          rw [List.mem_map] at hmem0
          obtain ⟨j, hj, rfl⟩ := hmem0
          exact hj
        have hmem : ∃ m, (p.1, m) ∈ mrows.enum := by
          unfold codeCandidates at hpc
          exact tierCandidates_mem (List.mem_filter.mp hpc).1
        obtain ⟨m, hm⟩ := hmem
        have hrow : rowAt mrows p.1 = m := rowAt_of_mem_enum hm
        rw [calc_pre_raw hsyn, hrow, if_neg]
        exact fun htt => hnot p.1 m hm htt
    · -- tier-1 selected: fuse the pipeline and compare pointwise
      have hTier : tierCandidates mrows.enum cfg (pBrand cfg r) (pColor cfg r)
          [s0] = lookupBCS mrows.enum cfg (pBrand cfg r) (pColor cfg r) s0 := by
        unfold tierCandidates
        simp only []
        rw [hone]
        cases hL : lookupBCS mrows.enum cfg (pBrand cfg r) (pColor cfg r) s0 with
        | nil => exact absurd hL ht1
        | cons a t => rfl
      unfold codeCandidates
      rw [hTier]
      unfold lookupBCS
      rw [fused_pipeline]
      apply List.filterMap_congr
      intro x hx
      obtain ⟨j, m⟩ := x
      have hrow : rowAt mrows j = m := rowAt_of_mem_enum hx
      rw [calc_pre_raw hsyn, hrow]
      by_cases htt : (calcConfidence cfg (rawView r) (rawView m)).1 = true
      · obtain ⟨hgb, hgc, hgs, hgn, -⟩ := calc_true_gates
          (show calcConfidence cfg (rawView r) (rawView m) =
            (true, (calcConfidence cfg (rawView r) (rawView m)).2.1,
             (calcConfidence cfg (rawView r) (rawView m)).2.2) from by
            rw [← htt])
        rw [effBrand_raw, effBrand_raw] at hgb
        rw [effColor_raw, effColor_raw] at hgc
        rw [hrs1, effSizes_raw] at hgs
        obtain ⟨s, hs, hsm⟩ := hgs
        rw [List.mem_singleton] at hs
        rw [hs] at hsm
        have hP : (decide (pBrand cfg m = pBrand cfg r) &&
            decide (pColor cfg m = pColor cfg r) &&
            decide (s0 ∈ pSizes cfg m)) = true := by
          simp [hgb.symm, hgc.symm, hsm]
        have hns := fastFuzzy_pos_eq_sim hgn hc0
        rw [effName_raw, effName_raw, ← pName_nil hsyn r,
          ← pName_nil hsyn m] at hns hgn
        have hpc : decide (cfg.nameScoreCutoff ≤
            cfg.nameSim (pName cfg r) (pName cfg m)) = true := by
          rw [← hns]
          simpa using hgn
        rw [if_pos hP]
        simp only [hrow, hpc, if_true, htt, Bool.true_and]
      · have hrhs : (if ((calcConfidence cfg (rawView r) (rawView m)).1 &&
            decide (0 < mqty j)) = true then
            some (j, (calcConfidence cfg (rawView r) (rawView m)).2.1,
              (calcConfidence cfg (rawView r) (rawView m)).2.2)
          else none) = none := by
          rw [if_neg]
          simp only [Bool.and_eq_true]
          exact fun hc => htt hc.1
        rw [hrhs, if_neg htt]
        split_ifs <;> rfl

/-- The blocked matcher's accepted-candidate list — built from any
strictly-index-increasing pre-scored list whose score entries are the fuzzy
name scores of the rows they index — admits only index-increasing
equal-confidence ties: with no synonym groups, a positive cutoff and a
positive name weight, equal confidence forces equal name score, and the
stable score sort keeps equal scores in index order. -/
theorem scored_filterMap_pairwise (cfg : MatcherConfig) (mrows : List RawRow)
    (r : RawRow) (hsyn : cfg.nameSynonymGroups = [])
    (hc0 : 0 < cfg.nameScoreCutoff) (hw : 0 < cfg.weightName)
    (l : List (Nat × ℚ)) (hl : l.Pairwise (fun p q => p.1 < q.1))
    (hW : ∀ p ∈ l,
      p.2 = cfg.nameSim (pName cfg r) (pName cfg (rowAt mrows p.1))) :
    ((sortDescBy (fun p => p.2) l).filterMap (fun p =>
        if (calcConfidence cfg (precomputeRow cfg r)
              (precomputeRow cfg (rowAt mrows p.1))).1 = true then
          some (p.1,
            (calcConfidence cfg (precomputeRow cfg r)
              (precomputeRow cfg (rowAt mrows p.1))).2.1,
            (calcConfidence cfg (precomputeRow cfg r)
              (precomputeRow cfg (rowAt mrows p.1))).2.2)
        else none)).Pairwise (fun a b => a.2.1 = b.2.1 → a.1 < b.1) := by
  have hW2 : ∀ p ∈ sortDescBy (fun p => p.2) l,
      p.2 = cfg.nameSim (pName cfg r) (pName cfg (rowAt mrows p.1)) := by
    intro p hp
    exact hW p ((sortDescBy_perm (fun p => p.2) l).subset hp)
  have hs := @sortDescBy_pairwise _ (fun p : Nat × ℚ => p.2)
    (fun p q => p.1 < q.1) l
    (hl.imp (fun {a b} (h : a.1 < b.1) (_ : a.2 = b.2) => h))
  have hs2 : (sortDescBy (fun p => p.2) l).Pairwise (fun p q =>
      (p.2 = cfg.nameSim (pName cfg r) (pName cfg (rowAt mrows p.1)) ∧
       q.2 = cfg.nameSim (pName cfg r) (pName cfg (rowAt mrows q.1))) ∧
      (q.2 < p.2 ∨ (p.2 = q.2 ∧ p.1 < q.1))) := by
    have hm := List.Pairwise.and_mem.mp hs
    exact hm.imp (fun {a b} h => ⟨⟨hW2 a h.1, hW2 b h.2.1⟩, h.2.2⟩)
  refine List.Pairwise.filterMap _ ?_ hs2
  intro a b hab u hu v hv
  simp only [Option.mem_def] at hu hv
  split_ifs at hu hv with h1 h2
  cases Option.some.inj hu
  cases Option.some.inj hv
  obtain ⟨⟨hWa, hWb⟩, hbase⟩ := hab
  intro hconf
  have hconf' : (calcConfidence cfg (precomputeRow cfg r)
      (precomputeRow cfg (rowAt mrows a.1))).2.1 =
      (calcConfidence cfg (precomputeRow cfg r)
      (precomputeRow cfg (rowAt mrows b.1))).2.1 := hconf
  rw [calc_pre_raw hsyn, calc_pre_raw hsyn] at hconf'
  rw [calc_pre_raw hsyn] at h1
  rw [calc_pre_raw hsyn] at h2
  obtain ⟨-, -, -, hgna, hca⟩ := calc_true_gates
    (show calcConfidence cfg (rawView r) (rawView (rowAt mrows a.1)) =
      (true, (calcConfidence cfg (rawView r) (rawView (rowAt mrows a.1))).2.1,
       (calcConfidence cfg (rawView r) (rawView (rowAt mrows a.1))).2.2) from by
      rw [← h1])
  obtain ⟨-, -, -, hgnb, hcb⟩ := calc_true_gates
    (show calcConfidence cfg (rawView r) (rawView (rowAt mrows b.1)) =
      (true, (calcConfidence cfg (rawView r) (rawView (rowAt mrows b.1))).2.1,
       (calcConfidence cfg (rawView r) (rawView (rowAt mrows b.1))).2.2) from by
      rw [← h2])
  have hna := fastFuzzy_pos_eq_sim hgna hc0
  have hnb := fastFuzzy_pos_eq_sim hgnb hc0
  rw [effName_raw, effName_raw, ← pName_nil hsyn r,
    ← pName_nil hsyn (rowAt mrows a.1)] at hna hca
  rw [effName_raw, effName_raw, ← pName_nil hsyn r,
    ← pName_nil hsyn (rowAt mrows b.1)] at hnb hcb
  rw [hna, ← hWa] at hca
  rw [hnb, ← hWb] at hcb
  rw [hca, hcb] at hconf'
  have heq : a.2 = b.2 := by
    have h3 : a.2 * cfg.weightName = b.2 * cfg.weightName := by linarith
    exact mul_right_cancel₀ (ne_of_gt hw) h3
  rcases hbase with hlt | ⟨-, hidx⟩
  · rw [heq] at hlt
    exact absurd hlt (lt_irrefl _)
  · exact hidx

/-- Per order line: with no name-synonym groups, a positive name-score
cutoff, a positive name weight and at most one size token on the line, the
blocked matcher's sorted accepted-candidate list coincides with the
sequential matcher's. -/
theorem blocked_eq_seq_line (cfg : MatcherConfig) (mrows : List RawRow)
    (i : Nat) (r : RawRow) (mqty : Nat → Int)
    (hsyn : cfg.nameSynonymGroups = []) (hc0 : 0 < cfg.nameScoreCutoff)
    (hw : 0 < cfg.weightName) (hr1 : (pSizes cfg r).length ≤ 1) :
    blockedLine cfg mrows i r mqty = seqLine cfg mrows i r mqty := by
  unfold blockedLine seqLine
  simp only []
  refine @sortDescBy_eq_of_perm (Nat × ℚ × MatchDetails)
    (fun q => q.2.1) (fun a b => a.1 < b.1)
    (fun a b h1 h2 => absurd h2 (Nat.lt_asymm h1)) _ _ ?_ ?_ ?_
  · rw [← blocked_filterMap_eq cfg mrows r mqty hsyn hc0 hr1]
    exact List.Perm.filterMap _ (sortDescBy_perm _ _)
  · apply scored_filterMap_pairwise cfg mrows r hsyn hc0 hw
    · have hcids : (codeCandidates mrows.enum cfg (pBrand cfg r)
          (pColor cfg r) (pSizes cfg r) mqty).Pairwise (fun a b => a < b) := by
        unfold codeCandidates
        exact (tierCandidates_pairwise mrows cfg _ _ _ hr1).filter _
      exact (List.Pairwise.map
        (fun j => (j, cfg.nameSim (pName cfg r) (pName cfg (rowAt mrows j))))
        (fun a b hab => hab) hcids).filter _
    · intro p hp
      have hmem0 := (List.mem_filter.mp hp).1
      rw [List.mem_map] at hmem0
      obtain ⟨j, hj, rfl⟩ := hmem0
      rfl
  · exact (seq_cands_pairwise cfg mrows r mqty).imp
      (fun {a b} (h : a.1 < b.1) (_ : a.2.1 = b.2.1) => h)

/-- C9 (amended): the blocked matcher is an exact refinement of the
sequential reference matcher only under additional conditions — no
name-synonym groups configured, a positive name-score cutoff, a positive
name weight, and at most one size token per order line; then the two
matchers produce identical `MatchResult` sequences (including identical
abort behaviour on bad quantity cells).  Without those conditions the
outputs can differ, as the counterexample shows. -/
theorem C9_amended (cfg : MatcherConfig) (receipt matched : Dataset)
    (hsyn : cfg.nameSynonymGroups = []) (hc0 : 0 < cfg.nameScoreCutoff)
    (hw : 0 < cfg.weightName)
    (hr1 : ∀ r ∈ receipt.rows, (pSizes cfg r).length ≤ 1) :
    runBlocked cfg receipt matched = runSeq cfg receipt matched := by
  unfold runBlocked runSeq
  refine congrArg (Bind.bind (parseQty receipt)) (funext fun rq => ?_)
  refine congrArg (Bind.bind (parseQty matched)) (funext fun mq => ?_)
  refine congrArg pure ?_
  apply runLoop_congr_on
  intro p hp q
  have hpr : p.2 ∈ receipt.rows :=
    List.getElem?_mem (List.mem_enum_iff_getElem?.mp hp)
  exact blocked_eq_seq_line cfg matched.rows p.1 p.2 q hsyn hc0 hw
    (hr1 p.2 hpr)

/-- Concrete instantiation of the amended C9 equivalence at the default
configuration on singleton-size order lines. -/
theorem C9_amended_witness :
    cfg0.nameSynonymGroups = [] ∧ 0 < cfg0.nameScoreCutoff ∧
    0 < cfg0.weightName ∧
    (∀ r ∈ dsNoQtyR.rows, (pSizes cfg0 r).length ≤ 1) ∧
    runBlocked cfg0 dsNoQtyR dsNoQtyM = runSeq cfg0 dsNoQtyR dsNoQtyM :=
  ⟨rfl, by decide, by decide, by decide,
    C9_amended cfg0 dsNoQtyR dsNoQtyM rfl (by decide) (by decide) (by decide)⟩

end ProductMatching
